import Mathlib

/-!
Shallow embedding of the colocalization patch-extraction core of
`src/extract_colocalized_patches.py` (functions `calculate_colocalization_score`,
`find_colocalization_hotspots`, `extract_patch`), together with proofs settling
the specification claims about it.

Volumes are modelled as nested lists in C (row-major) order, floating point
arithmetic as exact rational arithmetic, numpy reductions/percentiles/argmax by
their documented semantics, and the scipy `ndimage.convolve` box filter by its
documented offset convention (for an even kernel extent the window is shifted so
that it covers offsets `-(s/2)+1 .. s/2`).  Calls that raise in numpy/scipy
(reductions or argmax over a zero-size array, a zero-size filter kernel) are
modelled with `Except`.
-/

set_option maxRecDepth 20000

deriving instance DecidableEq for Except

namespace CellSeg

/-- The `1e-10` stabiliser used by the normalizer (line 32). -/
def eps : ℚ := 1 / 10000000000

/-- A 3-d array of `α` values in C (row-major) order: planes, rows, cells. -/
abbrev Grid (α : Type) := List (List (List α))

/-- A single-channel volume (Z, Y, X) of intensities. -/
abbrev Vol3 := Grid ℚ

/-- A boolean mask of the same layout as a volume. -/
abbrev Mask3 := Grid Bool

/-- A multi-channel volume (C, Z, Y, X): a list of single-channel volumes. -/
abbrev Vol4 := List Vol3

/-- An integer voxel coordinate (z, y, x). -/
abbrev Coord := ℕ × ℕ × ℕ

/-- Element lookup with a default, mirroring in-bounds numpy indexing. -/
def getG {α : Type} (d : α) (v : Grid α) (i j k : ℕ) : α :=
  ((v.getD i []).getD j []).getD k d

/-- Lookup in a volume (default 0 outside the stored extent). -/
def get3 (v : Vol3) (i j k : ℕ) : ℚ := getG 0 v i j k

/-- Lookup in a mask (default `false` outside the stored extent). -/
def getM (m : Mask3) (i j k : ℕ) : Bool := getG false m i j k

/-- The `.shape` of a 3-d array (read off the first plane/row, as for a
rectangular numpy array). -/
def shape3 {α : Type} (v : Grid α) : Coord :=
  (v.length, (v.getD 0 []).length, ((v.getD 0 []).getD 0 []).length)

/-- Predicate: `v` is a rectangular 3-d array of extents `s` (what `numpy` guarantees
for every `ndarray`). -/
def HasShape {α : Type} (v : Grid α) (s : Coord) : Prop :=
  v.length = s.1 ∧ ∀ p ∈ v, p.length = s.2.1 ∧ ∀ r ∈ p, r.length = s.2.2

/-- A rectangular array (its stored extents agree with its `.shape`). -/
def Rect {α : Type} (v : Grid α) : Prop := HasShape v (shape3 v)

/-- Element-wise map over a 3-d array (a numpy ufunc / `astype`). -/
def map3 {α β : Type} (f : α → β) (v : Grid α) : Grid β :=
  v.map (fun p => p.map (fun r => r.map f))

/-- Element-wise combination of two equal-shaped 3-d arrays
(numpy broadcasting-free binary ufunc such as `&`). -/
def zipG {α β γ : Type} (f : α → β → γ) (a : Grid α) (b : Grid β) : Grid γ :=
  List.zipWith (fun p q => List.zipWith (fun r s => List.zipWith f r s) p q) a b

/-- Row-major (C-order) flattening, as numpy reductions and `argmax` use. -/
def flat3 {α : Type} (v : Grid α) : List α := (v.map List.flatten).flatten

/-- Model of `np.min` over a nonempty flattened list (the `[]` default is never used:
the empty case is routed to an error before this is called). -/
def listMin : List ℚ → ℚ
  | [] => 0
  | x :: xs => xs.foldl min x

/-- Model of `np.max` over a nonempty flattened list. -/
def listMax : List ℚ → ℚ
  | [] => 0
  | x :: xs => xs.foldl max x

/-- Lines 32-33: `(ch - ch.min()) / (ch.max() - ch.min() + 1e-10)`. -/
def normalize3 (ch : Vol3) : Vol3 :=
  let mn := listMin (flat3 ch)
  let mx := listMax (flat3 ch)
  map3 (fun x => (x - mn) / (mx - mn + eps)) ch

/-- Model of `np.percentile(l, p)` with the default linear interpolation: virtual index
`h = p/100 * (n-1)` into the ascending sort, interpolated between `floor h`
and the (clipped) next entry. -/
def percentileValue (l : List ℚ) (p : ℚ) : ℚ :=
  let s := l.insertionSort (· ≤ ·)
  let n := l.length
  let h : ℚ := p * ((n : ℚ) - 1) / 100
  let lo : ℕ := (Rat.floor h).toNat
  let hi : ℕ := min (lo + 1) (n - 1)
  s.getD lo 0 + (h - (lo : ℚ)) * (s.getD hi 0 - s.getD lo 0)

/-- Lines 40-41: strict comparison `normalized > threshold`. -/
def thresholdMask (v : Vol3) (t : ℚ) : Mask3 := map3 (fun x => decide (t < x)) v

/-- The per-channel binary mask of lines 36-41: threshold the normalized
channel at the percentile of the normalized channel. -/
def channelMask (ch : Vol3) (p : ℚ) : Mask3 :=
  thresholdMask (normalize3 ch) (percentileValue (flat3 (normalize3 ch)) p)

/-- Model of `values[mask].sum()`: sum of the entries selected by a boolean mask,
both flattened in C order. -/
def maskedSum : List Bool → List ℚ → ℚ
  | b :: bs, x :: xs => (if b then x else 0) + maskedSum bs xs
  | _, _ => 0

/-- Model of `mask.sum()` for a boolean list: the number of `true` entries. -/
def countTrue (l : List Bool) : ℕ := l.countP (fun b => b)

/-- Exceptions the numpy/scipy calls in this pipeline can raise. -/
inductive NumpyErr where
  /-- `np.min` / `np.percentile` on a zero-size array raises `ValueError`. -/
  | zeroSizeReduction
  /-- `np.argmax` on a zero-size array raises `ValueError`. -/
  | zeroSizeArgmax
  /-- `scipy.ndimage.convolve` with a zero-size kernel dimension raises
  `RuntimeError` (a kernel dimension is zero whenever `patch_size[d] // 2 = 0`). -/
  | badFilterShape
  deriving DecidableEq

/-- Lines 19-52: normalize both channels, threshold each at the percentile,
AND the masks, and compute the Manders coefficient
`ch1_norm[coloc_mask].sum() / ch1_norm[mask1].sum()` (or `0.0` for an empty
`mask1`).  Returns the coefficient and the colocalization mask.  The mask
combination `mask1 & mask2` is modelled for equal-shaped channels (the only
case exercised by the pipeline and by the claims). -/
def calculate_colocalization_score (ch1 ch2 : Vol3) (threshold_percentile : ℚ) :
    Except NumpyErr (ℚ × Mask3) :=
  if flat3 ch1 = [] ∨ flat3 ch2 = [] then .error .zeroSizeReduction else
  let m1 := channelMask ch1 threshold_percentile
  let m2 := channelMask ch2 threshold_percentile
  let coloc := zipG (· && ·) m1 m2
  let n1 := normalize3 ch1
  let manders : ℚ :=
    if 0 < countTrue (flat3 m1) then
      maskedSum (flat3 coloc) (flat3 n1) / maskedSum (flat3 m1) (flat3 n1)
    else 0
  .ok (manders, coloc)

/-- The box-kernel offsets along one axis of extent `s` under
`scipy.ndimage.convolve`'s centering: `s/2 - m` for `m` in `range s`
(symmetric `-(s/2) .. s/2` for odd `s`, shifted `-(s/2)+1 .. s/2` for even `s`,
matching scipy's origin adjustment for even kernels). -/
def offList (s : ℕ) : List ℤ := (List.range s).map (fun m => ((s / 2 : ℕ) : ℤ) - (m : ℤ))

/-- Volume lookup at a signed coordinate; out-of-bounds reads are 0,
modelling `mode='constant', cval=0`. -/
def getZ (v : Vol3) (i j k : ℤ) : ℚ :=
  if 0 ≤ i ∧ 0 ≤ j ∧ 0 ≤ k then get3 v i.toNat j.toNat k.toNat else 0

/-- Model of `coloc_mask.astype(float)`: a fresh float array with 1.0/0.0 entries. -/
def castMask (m : Mask3) : Vol3 := map3 (fun b => if b then (1 : ℚ) else 0) m

/-- Build a rectangular 3-d array of extents `s` from an entry function. -/
def build3 {α : Type} (s : Coord) (f : ℕ → ℕ → ℕ → α) : Grid α :=
  (List.range s.1).map (fun i => (List.range s.2.1).map (fun j =>
    (List.range s.2.2).map (fun k => f i j k)))

/-- Lines 67-75: the density map, the convolution of the float-cast mask with
the all-ones box kernel of extents `patch_size // 2`, zero-padded boundary. -/
def densityMap (coloc_mask : Mask3) (patch_size : Coord) : Vol3 :=
  let mf := castMask coloc_mask
  build3 (shape3 coloc_mask) (fun i j k =>
    ((offList (patch_size.1 / 2)).map (fun dz =>
      ((offList (patch_size.2.1 / 2)).map (fun dy =>
        ((offList (patch_size.2.2 / 2)).map (fun dx =>
          getZ mf ((i : ℤ) + dz) ((j : ℤ) + dy) ((k : ℤ) + dx))).sum)).sum)).sum)

/-- Model of `np.argmax` on a flat list: index of the first occurrence of the maximum
(0 for the empty list, where numpy would raise — that case is guarded by
`NumpyErr.zeroSizeArgmax` before this is reached). -/
def argmaxIdx : List ℚ → ℕ
  | [] => 0
  | [_] => 0
  | x :: y :: xs =>
    let r := argmaxIdx (y :: xs)
    if x < (y :: xs).getD r 0 then r + 1 else 0

/-- Model of `np.unravel_index` for a 3-d shape. -/
def unravel3 (s : Coord) (m : ℕ) : Coord :=
  (m / (s.2.1 * s.2.2), (m / s.2.2) % s.2.1, m % s.2.2)

/-- Lines 87-91 for one axis: the candidate coordinate is invalid when
`c < patch_size//2` or `c > shape - patch_size//2` (Python integer
arithmetic, so the subtraction may be negative: compare in `ℤ`). -/
def validAxis (len pad c : ℕ) : Bool :=
  decide (¬((c : ℤ) < (pad : ℤ) ∨ (len : ℤ) - (pad : ℤ) < (c : ℤ)))

/-- Lines 85-91: the edge-margin validity check over the three axes. -/
def validCenter (vshape patch_size : Coord) (c : Coord) : Bool :=
  validAxis vshape.1 (patch_size.1 / 2) c.1 &&
  validAxis vshape.2.1 (patch_size.2.1 / 2) c.2.1 &&
  validAxis vshape.2.2 (patch_size.2.2 / 2) c.2.2

/-- Value `patch_size // 2`, the per-axis half-extent used for suppression,
validity margins and patch bounds. -/
def halfPad (patch_size : Coord) : Coord :=
  (patch_size.1 / 2, patch_size.2.1 / 2, patch_size.2.2 / 2)

/-- Map with the element index, used to model slice assignment. -/
def mapWithIdxFrom {α β : Type} (f : ℕ → α → β) : ℕ → List α → List β
  | _, [] => []
  | i, x :: t => f i x :: mapWithIdxFrom f (i + 1) t

/-- Map with the element index starting at 0. -/
def mapWithIdx {α β : Type} (f : ℕ → α → β) (l : List α) : List β := mapWithIdxFrom f 0 l

/-- Membership in the suppressed region of lines 99-103: the half-open box
`max(0, c-pad) <= p < min(shape, c+pad)` on every axis (`ℕ` subtraction is
exactly Python's `max(0, c - pad)`). -/
def inSuppBox (vshape c pad p : Coord) : Prop :=
  (c.1 - pad.1 ≤ p.1 ∧ p.1 < min vshape.1 (c.1 + pad.1)) ∧
  (c.2.1 - pad.2.1 ≤ p.2.1 ∧ p.2.1 < min vshape.2.1 (c.2.1 + pad.2.1)) ∧
  (c.2.2 - pad.2.2 ≤ p.2.2 ∧ p.2.2 < min vshape.2.2 (c.2.2 + pad.2.2))

instance (vshape c pad p : Coord) : Decidable (inSuppBox vshape c pad p) := by
  unfold inSuppBox; infer_instance

instance {α : Type} (v : Grid α) (s : Coord) : Decidable (HasShape v s) := by
  unfold HasShape; infer_instance

instance {α : Type} (v : Grid α) : Decidable (Rect v) := by
  unfold Rect HasShape; infer_instance

/-- Lines 96-103: zero out the density inside the clamped half-open box
around the candidate. -/
def suppressBox (d : Vol3) (vshape c pad : Coord) : Vol3 :=
  mapWithIdx (fun i p => mapWithIdx (fun j r => mapWithIdx (fun k x =>
    if inSuppBox vshape c pad (i, j, k) then 0 else x) r) p) d

/-- Lines 81-105: the greedy selection loop.  Each iteration takes the
row-major argmax of the density, appends it to the output if it passes the
edge-margin check, and suppresses its half-open box either way. -/
def hotspotLoop (vshape patch_size : Coord) : Vol3 → ℕ → List Coord
  | _, 0 => []
  | d, n + 1 =>
    let c := unravel3 vshape (argmaxIdx (flat3 d))
    let rest := hotspotLoop vshape patch_size
      (suppressBox d vshape c (halfPad patch_size)) n
    if validCenter vshape patch_size c then c :: rest else rest

/-- Lines 55-105: `find_colocalization_hotspots`.  The count is a Python
`int` (ℤ); `range n` is empty for a non-positive `n`.  A zero-size kernel
dimension (any `patch_size[d] // 2 = 0`) raises in `ndimage.convolve`; an
empty density map raises in `argmax` on the first loop iteration. -/
def find_colocalization_hotspots (coloc_mask : Mask3) (num_patches : ℤ)
    (patch_size : Coord) : Except NumpyErr (List Coord) :=
  if patch_size.1 / 2 = 0 ∨ patch_size.2.1 / 2 = 0 ∨ patch_size.2.2 / 2 = 0 then
    .error .badFilterShape
  else
    let d := densityMap coloc_mask patch_size
    if num_patches.toNat ≠ 0 ∧ flat3 d = [] then .error .zeroSizeArgmax
    else .ok (hotspotLoop (shape3 coloc_mask) patch_size d num_patches.toNat)

/-- The two arrays live during `find_colocalization_hotspots`: the caller's
mask and the density map freshly allocated from it by
`astype(float)`/`convolve`.  The loop's in-place writes target only the
density cell; this store makes that explicit for the frame claim. -/
structure HotspotStore where
  coloc_mask : Mask3
  density_map : Vol3

/-- The selection loop with the array store threaded through: every
suppression write updates the `density_map` cell of the store. -/
def hotspotLoopS (vshape patch_size : Coord) : HotspotStore → ℕ → List Coord × HotspotStore
  | st, 0 => ([], st)
  | st, n + 1 =>
    let c := unravel3 vshape (argmaxIdx (flat3 st.density_map))
    let st' : HotspotStore :=
      ⟨st.coloc_mask, suppressBox st.density_map vshape c (halfPad patch_size)⟩
    let res := hotspotLoopS vshape patch_size st' n
    (if validCenter vshape patch_size c then c :: res.1 else res.1, res.2)

/-- Variant of `find_colocalization_hotspots` with the array store made explicit. -/
def find_colocalization_hotspots_store (coloc_mask : Mask3) (num_patches : ℤ)
    (patch_size : Coord) : List Coord × HotspotStore :=
  hotspotLoopS (shape3 coloc_mask) patch_size
    ⟨coloc_mask, densityMap coloc_mask patch_size⟩ num_patches.toNat

/-- One-axis slice `l[lo:hi]` with in-range nonnegative bounds. -/
def sliceList {α : Type} (l : List α) (lo hi : ℕ) : List α := (l.drop lo).take (hi - lo)

/-- Model of `volume[z0:z1, y0:y1, x0:x1]`. -/
def slice3 (v : Vol3) (z0 z1 y0 y1 x0 x1 : ℕ) : Vol3 :=
  (sliceList v z0 z1).map (fun p => (sliceList p y0 y1).map (fun r => sliceList r x0 x1))

/-- Model of `np.zeros(patch_size)`. -/
def zeros3 (s : Coord) : Vol3 :=
  List.replicate s.1 (List.replicate s.2.1 (List.replicate s.2.2 (0 : ℚ)))

/-- Model of `base[:len(src)] = src` along one axis: overwrite a prefix. -/
def setRow : List ℚ → List ℚ → List ℚ
  | b, [] => b
  | [], _ => []
  | _ :: bs, y :: ss => y :: setRow bs ss

/-- Model of `base[:a0, :a1] = src` for 2-d arrays. -/
def setMat : List (List ℚ) → List (List ℚ) → List (List ℚ)
  | b, [] => b
  | [], _ => []
  | r :: bs, s :: ss => setRow r s :: setMat bs ss

/-- Model of `padded[:a0, :a1, :a2] = patch`: copy `patch` into the low-index corner of
`padded`. -/
def setVol : Vol3 → Vol3 → Vol3
  | b, [] => b
  | [], _ => []
  | p :: bs, s :: ss => setMat p s :: setVol bs ss

/-- The clamped slice bounds of lines 131-136 for one axis:
`[max(0, c - ps//2), min(extent, c + ps//2))` (ℕ subtraction is Python's
`max(0, ·)`). -/
def clampBounds (extent c half : ℕ) : ℕ × ℕ := (c - half, min extent (c + half))

/-- The clamped source slice `volume[z_start:z_end, y_start:y_end, x_start:x_end]`
of lines 127-141. -/
def patchSlice (volume : Vol3) (center patch_size : Coord) : Vol3 :=
  let shape := shape3 volume
  let zb := clampBounds shape.1 center.1 (patch_size.1 / 2)
  let yb := clampBounds shape.2.1 center.2.1 (patch_size.2.1 / 2)
  let xb := clampBounds shape.2.2 center.2.2 (patch_size.2.2 / 2)
  slice3 volume zb.1 zb.2 yb.1 yb.2 xb.1 xb.2

/-- Lines 108-157, single-channel (3-d) branch of `extract_patch`: slice with
clamped bounds, and if the slice is smaller than `patch_size`, copy it into
the low corner of a zero buffer of exactly `patch_size`. -/
def extract_patch (volume : Vol3) (center : Coord) (patch_size : Coord) : Vol3 :=
  let patch := patchSlice volume center patch_size
  if shape3 patch = patch_size then patch
  else setVol (zeros3 patch_size) patch

/-- Lines 108-157, multi-channel (4-d) branch: the channel axis is untouched,
the spatial bounds come from `volume.shape[1:]`, and padding allocates
`np.zeros((C,) + patch_size)` before the corner copy. -/
def extract_patch4 (volume : Vol4) (center : Coord) (patch_size : Coord) : Vol4 :=
  let shape := shape3 (volume.getD 0 [])
  let zb := clampBounds shape.1 center.1 (patch_size.1 / 2)
  let yb := clampBounds shape.2.1 center.2.1 (patch_size.2.1 / 2)
  let xb := clampBounds shape.2.2 center.2.2 (patch_size.2.2 / 2)
  let patch := volume.map (fun ch => slice3 ch zb.1 zb.2 yb.1 yb.2 xb.1 xb.2)
  if shape3 (patch.getD 0 []) = patch_size then patch
  else patch.map (fun chs => setVol (zeros3 patch_size) chs)

/-- A multi-channel array has channel count `n` and spatial shape `s`. -/
def HasShape4 (v : Vol4) (n : ℕ) (s : Coord) : Prop :=
  v.length = n ∧ ∀ ch ∈ v, HasShape ch s

instance (v : Vol4) (n : ℕ) (s : Coord) : Decidable (HasShape4 v n s) := by
  unfold HasShape4 HasShape; infer_instance

/-- The closed axis-aligned box of half-extent `pad` centered at `c`
contains the (possibly signed) point `p`. -/
def inClosedBox (c pad : Coord) (p : ℤ × ℤ × ℤ) : Prop :=
  ((c.1 : ℤ) - pad.1 ≤ p.1 ∧ p.1 ≤ (c.1 : ℤ) + pad.1) ∧
  ((c.2.1 : ℤ) - pad.2.1 ≤ p.2.1 ∧ p.2.1 ≤ (c.2.1 : ℤ) + pad.2.1) ∧
  ((c.2.2 : ℤ) - pad.2.2 ≤ p.2.2 ∧ p.2.2 ≤ (c.2.2 : ℤ) + pad.2.2)

instance (c pad : Coord) (p : ℤ × ℤ × ℤ) : Decidable (inClosedBox c pad p) := by
  unfold inClosedBox; infer_instance

/-- Two closed axis-aligned boxes of half-extent `pad` centered at `c` and
`c'` intersect (per axis the intervals overlap). -/
def boxesOverlap (pad c c' : Coord) : Prop :=
  (max ((c.1 : ℤ) - pad.1) ((c'.1 : ℤ) - pad.1) ≤
    min ((c.1 : ℤ) + pad.1) ((c'.1 : ℤ) + pad.1)) ∧
  (max ((c.2.1 : ℤ) - pad.2.1) ((c'.2.1 : ℤ) - pad.2.1) ≤
    min ((c.2.1 : ℤ) + pad.2.1) ((c'.2.1 : ℤ) + pad.2.1)) ∧
  (max ((c.2.2 : ℤ) - pad.2.2) ((c'.2.2 : ℤ) - pad.2.2) ≤
    min ((c.2.2 : ℤ) + pad.2.2) ((c'.2.2 : ℤ) + pad.2.2))

instance (pad c c' : Coord) : Decidable (boxesOverlap pad c c') := by
  unfold boxesOverlap; infer_instance

/-- The half-open voxel footprints `[c-pad, c+pad)` of the two patches
intersect on every axis (the exact voxel sets `extract_patch` copies for
even extents). -/
def footprintsOverlap (pad c c' : Coord) : Prop :=
  (max ((c.1 : ℤ) - pad.1) ((c'.1 : ℤ) - pad.1) <
    min ((c.1 : ℤ) + pad.1) ((c'.1 : ℤ) + pad.1)) ∧
  (max ((c.2.1 : ℤ) - pad.2.1) ((c'.2.1 : ℤ) - pad.2.1) <
    min ((c.2.1 : ℤ) + pad.2.1) ((c'.2.1 : ℤ) + pad.2.1)) ∧
  (max ((c.2.2 : ℤ) - pad.2.2) ((c'.2.2 : ℤ) - pad.2.2) <
    min ((c.2.2 : ℤ) + pad.2.2) ((c'.2.2 : ℤ) + pad.2.2))

instance (pad c c' : Coord) : Decidable (footprintsOverlap pad c c') := by
  unfold footprintsOverlap; infer_instance

/-- An all-zero volume of extents `(a, b, c)`. -/
def zerosVol (a b c : ℕ) : Vol3 :=
  List.replicate a (List.replicate b (List.replicate c (0 : ℚ)))

/-- An all-false mask of extents `(a, b, c)`. -/
def falseMask (a b c : ℕ) : Mask3 :=
  List.replicate a (List.replicate b (List.replicate c false))

/-- The concrete 2 x 2 x 8 mask used to exhibit overlapping hotspot picks:
colocalized voxels at (1,1,2), (1,1,3), (1,1,4). -/
def maskCE : Mask3 :=
  [[[false, false, false, false, false, false, false, false],
    [false, false, false, false, false, false, false, false]],
   [[false, false, false, false, false, false, false, false],
    [false, false, true, true, true, false, false, false]]]

/-- A concrete 1 x 1 x 2 all-zero channel. -/
def zeroCh : Vol3 := [[[0, 0]]]

/-- A concrete 2 x 2 x 2 volume with distinct entries, used by the
extract-patch witnesses. -/
def volW : Vol3 := [[[1, 2], [3, 4]], [[5, 6], [7, 8]]]

/-- A concrete 1 x 1 x 2 channel with one bright voxel. -/
def oneCh : Vol3 := [[[0, 1]]]

/-! ### Basic indexing lemmas -/

theorem getD_map {α β : Type} (f : α → β) (l : List α) (n : ℕ) (d : α) :
    (l.map f).getD n (f d) = f (l.getD n d) := by
  induction l generalizing n with
  | nil => simp [List.getD]
  | cons x t ih =>
    cases n with
    | zero => simp [List.getD]
    | succ m =>
      simp only [List.map_cons, List.getD_cons_succ]
      exact ih m

theorem length_mapWithIdxFrom {α β : Type} (f : ℕ → α → β) (i : ℕ) (l : List α) :
    (mapWithIdxFrom f i l).length = l.length := by
  induction l generalizing i with
  | nil => rfl
  | cons x t ih => simp [mapWithIdxFrom, ih]

theorem length_mapWithIdx {α β : Type} (f : ℕ → α → β) (l : List α) :
    (mapWithIdx f l).length = l.length := length_mapWithIdxFrom f 0 l

theorem getD_mapWithIdxFrom_lt {α β : Type} (f : ℕ → α → β) (l : List α) (i n : ℕ)
    (d : β) (d' : α) (h : n < l.length) :
    (mapWithIdxFrom f i l).getD n d = f (i + n) (l.getD n d') := by
  induction l generalizing i n with
  | nil => simp at h
  | cons x t ih =>
    cases n with
    | zero => simp [mapWithIdxFrom, List.getD]
    | succ m =>
      have harith : i + (m + 1) = (i + 1) + m := by omega
      simp only [mapWithIdxFrom, List.getD_cons_succ, harith]
      exact ih (i + 1) m (by simpa using h)

theorem getD_mapWithIdx_lt {α β : Type} (f : ℕ → α → β) (l : List α) (n : ℕ)
    (d : β) (d' : α) (h : n < l.length) :
    (mapWithIdx f l).getD n d = f n (l.getD n d') := by
  simpa using getD_mapWithIdxFrom_lt f l 0 n d d' h

theorem mem_mapWithIdxFrom {α β : Type} {y : β} (f : ℕ → α → β) (i : ℕ) (l : List α)
    (h : y ∈ mapWithIdxFrom f i l) : ∃ j, ∃ x ∈ l, y = f j x := by
  induction l generalizing i with
  | nil => simp [mapWithIdxFrom] at h
  | cons a t ih =>
    simp only [mapWithIdxFrom, List.mem_cons] at h
    rcases h with h | h
    · exact ⟨i, a, List.mem_cons_self a t, h⟩
    · obtain ⟨j, x, hx, hy⟩ := ih (i + 1) h
      exact ⟨j, x, List.mem_cons_of_mem _ hx, hy⟩

theorem mem_mapWithIdx {α β : Type} {y : β} (f : ℕ → α → β) (l : List α)
    (h : y ∈ mapWithIdx f l) : ∃ j, ∃ x ∈ l, y = f j x :=
  mem_mapWithIdxFrom f 0 l h

theorem getD_range_map {α : Type} (g : ℕ → α) (n i : ℕ) (d : α) :
    ((List.range n).map g).getD i d = if i < n then g i else d := by
  by_cases h : i < n
  · rw [List.getD_eq_getElem _ _ (by simpa using h)]
    simp [h]
  · rw [List.getD_eq_default _ _ (by simpa using Nat.le_of_not_lt h)]
    simp [h]

/-! ### flat3 lemmas -/

theorem mem_flat3 {α : Type} {x : α} {v : Grid α} :
    x ∈ flat3 v ↔ ∃ p ∈ v, ∃ r ∈ p, x ∈ r := by
  unfold flat3
  simp only [List.mem_flatten, List.mem_map]
  constructor
  · rintro ⟨l, ⟨p, hp, rfl⟩, hx⟩
    rcases List.mem_flatten.mp hx with ⟨r, hr, hxr⟩
    exact ⟨p, hp, r, hr, hxr⟩
  · rintro ⟨p, hp, r, hr, hx⟩
    exact ⟨p.flatten, ⟨p, hp, rfl⟩, List.mem_flatten.mpr ⟨r, hr, hx⟩⟩

theorem exists_get_of_mem_flat3 {x : ℚ} {v : Vol3} (h : x ∈ flat3 v) :
    ∃ i j k, get3 v i j k = x := by
  rcases mem_flat3.mp h with ⟨p, hp, r, hr, hx⟩
  rcases List.mem_iff_getElem.mp hp with ⟨i, hi, hpi⟩
  rcases List.mem_iff_getElem.mp hr with ⟨j, hj, hrj⟩
  rcases List.mem_iff_getElem.mp hx with ⟨k, hk, hxk⟩
  refine ⟨i, j, k, ?_⟩
  unfold get3 getG
  rw [List.getD_eq_getElem _ _ hi, hpi, List.getD_eq_getElem _ _ hj, hrj,
    List.getD_eq_getElem _ _ hk, hxk]

theorem get_mem_flat3 {v : Vol3} {i j k : ℕ} (hi : i < v.length)
    (hj : j < (v.getD i []).length) (hk : k < ((v.getD i []).getD j []).length) :
    get3 v i j k ∈ flat3 v := by
  apply mem_flat3.mpr
  refine ⟨v.getD i [], ?_, (v.getD i []).getD j [], ?_, ?_⟩
  · rw [List.getD_eq_getElem _ _ hi]; exact List.getElem_mem hi
  · rw [List.getD_eq_getElem _ _ hj]; exact List.getElem_mem hj
  · unfold get3 getG
    rw [List.getD_eq_getElem _ _ hk]; exact List.getElem_mem hk

theorem get3_eq_zero_of_flat {v : Vol3} (h : ∀ x ∈ flat3 v, x = 0) (i j k : ℕ) :
    get3 v i j k = 0 := by
  by_cases hi : i < v.length
  · by_cases hj : j < (v.getD i []).length
    · by_cases hk : k < ((v.getD i []).getD j []).length
      · exact h _ (get_mem_flat3 hi hj hk)
      · unfold get3 getG
        rw [List.getD_eq_default _ _ (Nat.le_of_not_lt hk)]
    · unfold get3 getG
      rw [List.getD_eq_default _ _ (Nat.le_of_not_lt hj)]
      simp [List.getD]
  · unfold get3 getG
    rw [List.getD_eq_default _ _ (Nat.le_of_not_lt hi)]
    simp [List.getD]

theorem flatten_length_uniform {α : Type} {p : List (List α)} {c : ℕ}
    (h : ∀ r ∈ p, r.length = c) : p.flatten.length = p.length * c := by
  induction p with
  | nil => simp
  | cons r t ih =>
    simp only [List.flatten_cons, List.length_append, List.length_cons]
    rw [h r (List.mem_cons_self r t), ih (fun r hr => h r (List.mem_cons_of_mem _ hr))]
    ring

theorem flatten_getD_uniform {α : Type} {p : List (List α)} {c : ℕ} {m : ℕ} (d : α)
    (h : ∀ r ∈ p, r.length = c) (hm : m < p.length * c) :
    p.flatten.getD m d = (p.getD (m / c) []).getD (m % c) d := by
  induction p generalizing m with
  | nil => simp at hm
  | cons r t ih =>
    have hc : 0 < c := by
      rcases Nat.eq_zero_or_pos c with h0 | h0
      · subst h0; simp at hm
      · exact h0
    have hr : r.length = c := h r (List.mem_cons_self r t)
    by_cases hmc : m < c
    · rw [List.flatten_cons, List.getD_append _ _ _ _ (by omega),
        Nat.div_eq_of_lt hmc, Nat.mod_eq_of_lt hmc]
      rfl
    · have hmc' : c ≤ m := Nat.le_of_not_lt hmc
      rw [List.flatten_cons, List.getD_append_right _ _ _ _ (by omega)]
      have hsub : m - r.length = m - c := by rw [hr]
      rw [hsub]
      have hm' : m - c < t.length * c := by
        simp only [List.length_cons] at hm
        have : (t.length + 1) * c = t.length * c + c := by ring
        omega
      rw [ih (fun r hr => h r (List.mem_cons_of_mem _ hr)) hm']
      have h1 : m / c = (m - c) / c + 1 := by
        conv_lhs => rw [show m = (m - c) + c by omega]
        rw [Nat.add_div_right _ hc]
      have h2 : m % c = (m - c) % c := by
        conv_lhs => rw [show m = (m - c) + c by omega]
        rw [Nat.add_mod_right]
      rw [h1, h2]
      rfl

theorem flat3_length {α : Type} {v : Grid α} {a b c : ℕ} (h : HasShape v (a, b, c)) :
    (flat3 v).length = a * b * c := by
  unfold flat3
  have hlen : ∀ l ∈ v.map List.flatten, l.length = b * c := by
    intro l hl
    obtain ⟨p, hp, rfl⟩ := List.mem_map.mp hl
    rw [flatten_length_uniform ((h.2 p hp).2), (h.2 p hp).1]
  rw [flatten_length_uniform hlen, List.length_map, h.1, Nat.mul_assoc]

theorem flat3_getD {v : Vol3} {a b c : ℕ} (h : HasShape v (a, b, c)) {m : ℕ}
    (hm : m < a * b * c) :
    (flat3 v).getD m 0 = get3 v (m / (b * c)) (m / c % b) (m % c) := by
  have hbc : 0 < b * c := by
    by_contra hb
    have hb0 : b * c = 0 := by omega
    rcases Nat.mul_eq_zero.mp hb0 with h0 | h0 <;> subst h0 <;> simp at hm
  have hlen : ∀ l ∈ v.map List.flatten, l.length = b * c := by
    intro l hl
    obtain ⟨p, hp, rfl⟩ := List.mem_map.mp hl
    rw [flatten_length_uniform ((h.2 p hp).2), (h.2 p hp).1]
  unfold flat3
  rw [flatten_getD_uniform 0 hlen
    (by rw [List.length_map, h.1]; show m < a * (b * c); rw [← Nat.mul_assoc]; exact hm)]
  have hm' : m < b * c * a := by
    have he : a * b * c = b * c * a := by ring
    rw [he] at hm; exact hm
  have hq : m / (b * c) < v.length := by
    rw [h.1]
    exact Nat.div_lt_of_lt_mul hm'
  have hmap : (v.map List.flatten).getD (m / (b * c)) [] =
      (v.getD (m / (b * c)) []).flatten := by
    have := getD_map List.flatten v (m / (b * c)) []
    simpa using this
  rw [hmap]
  have hpmem : v.getD (m / (b * c)) [] ∈ v := by
    rw [List.getD_eq_getElem _ _ hq]; exact List.getElem_mem hq
  rw [flatten_getD_uniform 0 ((h.2 _ hpmem).2)
    (by rw [(h.2 _ hpmem).1]; exact Nat.mod_lt _ hbc)]
  unfold get3 getG
  have e1 : m % (b * c) / c = m / c % b := by
    rw [Nat.mul_comm b c]
    exact Nat.mod_mul_right_div_self m c b
  have e2 : m % (b * c) % c = m % c := Nat.mod_mod_of_dvd m ⟨b, by ring⟩
  rw [e1, e2]

/-! ### build3, castMask, suppression lemmas -/

theorem get3_build3 (a b c : ℕ) (f : ℕ → ℕ → ℕ → ℚ) (i j k : ℕ) :
    get3 (build3 (a, b, c) f) i j k = if i < a ∧ j < b ∧ k < c then f i j k else 0 := by
  unfold get3 getG build3
  rw [getD_range_map]
  by_cases hi : i < a
  · rw [if_pos hi, getD_range_map]
    by_cases hj : j < b
    · rw [if_pos hj, getD_range_map]
      by_cases hk : k < c
      · rw [if_pos hk, if_pos ⟨hi, hj, hk⟩]
      · rw [if_neg hk, if_neg (fun h => hk h.2.2)]
    · rw [if_neg hj, List.getD_nil, if_neg (fun h => hj h.2.1)]
  · rw [if_neg hi, List.getD_nil, List.getD_nil, if_neg (fun h => hi h.1)]

theorem hasShape_build3 {α : Type} (s : Coord) (f : ℕ → ℕ → ℕ → α) :
    HasShape (build3 s f) s := by
  obtain ⟨a, b, c⟩ := s
  refine ⟨by simp [build3], ?_⟩
  intro p hp
  simp only [build3, List.mem_map] at hp
  obtain ⟨i, _, rfl⟩ := hp
  refine ⟨by simp, ?_⟩
  intro r hr
  simp only [List.mem_map] at hr
  obtain ⟨j, _, rfl⟩ := hr
  simp

theorem get3_map3b (f : Bool → ℚ) (h0 : f false = 0) (m : Mask3) (i j k : ℕ) :
    get3 (map3 f m) i j k = f (getM m i j k) := by
  unfold map3 get3 getM getG
  have e1 : (m.map (fun p => p.map fun r => r.map f)).getD i [] =
      ((m.getD i []).map fun r => r.map f) := by
    simpa using getD_map (fun p => p.map fun r => r.map f) m i []
  rw [e1]
  have e2 : ((m.getD i []).map fun r => r.map f).getD j [] =
      ((m.getD i []).getD j []).map f := by
    simpa using getD_map (fun r => r.map f) (m.getD i []) j []
  rw [e2]
  have e3 : (((m.getD i []).getD j []).map f).getD k 0 =
      f (((m.getD i []).getD j []).getD k false) := by
    rw [← h0]; exact getD_map f _ k false
  rw [e3]

theorem get3_castMask (m : Mask3) (i j k : ℕ) :
    get3 (castMask m) i j k = if getM m i j k then 1 else 0 :=
  get3_map3b (fun b => if b then (1 : ℚ) else 0) rfl m i j k

theorem flatten_map {α β : Type} (f : α → β) (L : List (List α)) :
    (L.map (List.map f)).flatten = L.flatten.map f := by
  induction L with
  | nil => rfl
  | cons r t ih => simp only [List.map_cons, List.flatten_cons, List.map_append, ih]

theorem flat3_map3 {α β : Type} (f : α → β) (v : Grid α) :
    flat3 (map3 f v) = (flat3 v).map f := by
  unfold flat3 map3
  rw [List.map_map, ← flatten_map f (v.map List.flatten), List.map_map]
  congr 1
  apply List.map_congr_left
  intro p _
  exact flatten_map f p

theorem get3_suppressBox (d : Vol3) (s c pad : Coord) (i j k : ℕ) :
    get3 (suppressBox d s c pad) i j k =
      if inSuppBox s c pad (i, j, k) then 0 else get3 d i j k := by
  unfold suppressBox get3 getG
  by_cases hi : i < d.length
  · rw [getD_mapWithIdx_lt _ _ _ _ [] hi]
    by_cases hj : j < (d.getD i []).length
    · rw [getD_mapWithIdx_lt _ _ _ _ [] hj]
      by_cases hk : k < ((d.getD i []).getD j []).length
      · rw [getD_mapWithIdx_lt _ _ _ _ 0 hk]
      · have hlen : ∀ L : List ℚ, L.length = ((d.getD i []).getD j []).length →
            L.getD k 0 = 0 :=
          fun L hL => List.getD_eq_default _ _ (by rw [hL]; exact Nat.le_of_not_lt hk)
        rw [hlen _ (length_mapWithIdx _ _), hlen _ rfl]
        exact (ite_self 0).symm
    · have hlen : ∀ L : List (List ℚ), L.length = (d.getD i []).length →
          L.getD j [] = [] :=
        fun L hL => List.getD_eq_default _ _ (by rw [hL]; exact Nat.le_of_not_lt hj)
      rw [hlen _ (length_mapWithIdx _ _), hlen _ rfl]
      simp only [List.getD_nil]
      exact (ite_self 0).symm
  · have hlen : ∀ L : List (List (List ℚ)), L.length = d.length → L.getD i [] = [] :=
      fun L hL => List.getD_eq_default _ _ (by rw [hL]; exact Nat.le_of_not_lt hi)
    rw [hlen _ (length_mapWithIdx _ _), hlen _ rfl]
    simp only [List.getD_nil]
    exact (ite_self 0).symm

theorem hasShape_suppressBox {d : Vol3} {s' : Coord} (h : HasShape d s') (s c pad : Coord) :
    HasShape (suppressBox d s c pad) s' := by
  refine ⟨by rw [suppressBox, length_mapWithIdx]; exact h.1, ?_⟩
  intro p hp
  obtain ⟨i, q, hq, rfl⟩ := mem_mapWithIdx _ _ hp
  refine ⟨by rw [length_mapWithIdx]; exact (h.2 q hq).1, ?_⟩
  intro r hr
  obtain ⟨j, rr, hrr, rfl⟩ := mem_mapWithIdx _ _ hr
  rw [length_mapWithIdx]
  exact (h.2 q hq).2 rr hrr

theorem nonneg_suppressBox {d : Vol3} (hd : ∀ i j k, 0 ≤ get3 d i j k) (s c pad : Coord) :
    ∀ i j k, 0 ≤ get3 (suppressBox d s c pad) i j k := by
  intro i j k
  rw [get3_suppressBox]
  split
  · exact le_refl 0
  · exact hd i j k

theorem suppressBox_zero {d : Vol3} {s c pad p : Coord} (hp : inSuppBox s c pad p) :
    get3 (suppressBox d s c pad) p.1 p.2.1 p.2.2 = 0 := by
  obtain ⟨i, j, k⟩ := p
  rw [get3_suppressBox, if_pos hp]

theorem suppressBox_preserves_zero {d : Vol3} {s c pad : Coord} {i j k : ℕ}
    (h : get3 d i j k = 0) : get3 (suppressBox d s c pad) i j k = 0 := by
  rw [get3_suppressBox]
  split
  · rfl
  · exact h

/-! ### argmax lemmas -/

theorem argmaxIdx_lt_length : ∀ (l : List ℚ), l ≠ [] → argmaxIdx l < l.length
  | [], h => absurd rfl h
  | [_], _ => by simp [argmaxIdx]
  | x :: y :: t, _ => by
    have ih := argmaxIdx_lt_length (y :: t) (by simp)
    show (if x < (y :: t).getD (argmaxIdx (y :: t)) 0 then argmaxIdx (y :: t) + 1 else 0) <
      (x :: y :: t).length
    split
    · simpa using Nat.succ_lt_succ ih
    · simp

theorem getD_le_argmax : ∀ (l : List ℚ), (∀ x ∈ l, 0 ≤ x) →
    ∀ i, l.getD i 0 ≤ l.getD (argmaxIdx l) 0
  | [], _, i => by simp [List.getD, argmaxIdx]
  | [x], hn, i => by
    cases i with
    | zero => simp [argmaxIdx]
    | succ m =>
      simp only [argmaxIdx, List.getD_cons_succ, List.getD_nil, List.getD_cons_zero]
      exact hn x (List.mem_cons_self x [])
  | x :: y :: t, hn, i => by
    have hn' : ∀ z ∈ y :: t, 0 ≤ z := fun z hz => hn z (List.mem_cons_of_mem _ hz)
    have ih := getD_le_argmax (y :: t) hn'
    show (x :: y :: t).getD i 0 ≤ (x :: y :: t).getD
      (if x < (y :: t).getD (argmaxIdx (y :: t)) 0 then argmaxIdx (y :: t) + 1 else 0) 0
    by_cases hc : x < (y :: t).getD (argmaxIdx (y :: t)) 0
    · rw [if_pos hc, List.getD_cons_succ]
      cases i with
      | zero => exact le_of_lt hc
      | succ m => rw [List.getD_cons_succ]; exact ih m
    · rw [if_neg hc, List.getD_cons_zero]
      cases i with
      | zero => exact le_refl x
      | succ m =>
        rw [List.getD_cons_succ]
        exact le_trans (ih m) (le_of_not_lt hc)

theorem argmaxIdx_eq_zero_of_all_zero : ∀ (l : List ℚ), (∀ x ∈ l, x = 0) → argmaxIdx l = 0
  | [], _ => rfl
  | [_], _ => rfl
  | x :: y :: t, h => by
    show (if x < (y :: t).getD (argmaxIdx (y :: t)) 0 then argmaxIdx (y :: t) + 1 else 0) = 0
    have hx : x = 0 := h x (List.mem_cons_self _ _)
    have hg : (y :: t).getD (argmaxIdx (y :: t)) 0 = 0 := by
      by_cases hlt : argmaxIdx (y :: t) < (y :: t).length
      · rw [List.getD_eq_getElem _ _ hlt]
        exact h _ (List.mem_cons_of_mem _ (List.getElem_mem hlt))
      · exact List.getD_eq_default _ _ (Nat.le_of_not_lt hlt)
    rw [hx, hg]
    simp

/-! ### Hotspot loop invariants -/

theorem hotspotLoop_succ (s ps : Coord) (d : Vol3) (n : ℕ) :
    hotspotLoop s ps d (n + 1) =
      if validCenter s ps (unravel3 s (argmaxIdx (flat3 d))) then
        unravel3 s (argmaxIdx (flat3 d)) ::
          hotspotLoop s ps
            (suppressBox d s (unravel3 s (argmaxIdx (flat3 d))) (halfPad ps)) n
      else
        hotspotLoop s ps
          (suppressBox d s (unravel3 s (argmaxIdx (flat3 d))) (halfPad ps)) n := rfl

theorem unravel3_zero (s : Coord) : unravel3 s 0 = (0, 0, 0) := by
  unfold unravel3
  simp

theorem validAxis_zero (len pad : ℕ) (h : validAxis len pad 0 = true) : pad = 0 := by
  unfold validAxis at h
  simp only [decide_eq_true_eq] at h
  push_neg at h
  have h1 := h.1
  omega

theorem validCenter_origin {s ps : Coord} (h : validCenter s ps (0, 0, 0) = true) :
    halfPad ps = (0, 0, 0) := by
  unfold validCenter at h
  simp only [Bool.and_eq_true] at h
  obtain ⟨⟨h1, h2⟩, h3⟩ := h
  unfold halfPad
  rw [validAxis_zero _ _ h1, validAxis_zero _ _ h2, validAxis_zero _ _ h3]

theorem pad_zero_of_valid_argmax {a b c : ℕ} {ps : Coord} {d : Vol3}
    (hshape : HasShape d (a, b, c)) (hnn : ∀ i j k, 0 ≤ get3 d i j k)
    (hv : validCenter (a, b, c) ps (unravel3 (a, b, c) (argmaxIdx (flat3 d))) = true)
    (hzero : get3 d (unravel3 (a, b, c) (argmaxIdx (flat3 d))).1
      (unravel3 (a, b, c) (argmaxIdx (flat3 d))).2.1
      (unravel3 (a, b, c) (argmaxIdx (flat3 d))).2.2 = 0) :
    halfPad ps = (0, 0, 0) := by
  by_cases hne : flat3 d = []
  · rw [hne] at hv
    have hz : argmaxIdx ([] : List ℚ) = 0 := rfl
    rw [hz, unravel3_zero] at hv
    exact validCenter_origin hv
  · have hflatnn : ∀ x ∈ flat3 d, 0 ≤ x := by
      intro x hx
      obtain ⟨i, j, k, hg⟩ := exists_get_of_mem_flat3 hx
      rw [← hg]; exact hnn i j k
    have hlt : argmaxIdx (flat3 d) < (flat3 d).length := argmaxIdx_lt_length _ hne
    have hlen := flat3_length hshape
    have hgd := @flat3_getD d a b c hshape (argmaxIdx (flat3 d)) (by omega)
    simp only [unravel3] at hzero
    have hmax0 : (flat3 d).getD (argmaxIdx (flat3 d)) 0 = 0 := by
      rw [hgd]; exact hzero
    have hall : ∀ x ∈ flat3 d, x = 0 := by
      intro x hx
      obtain ⟨idx, hidx, rfl⟩ := List.mem_iff_getElem.mp hx
      have h1 := getD_le_argmax (flat3 d) hflatnn idx
      rw [hmax0, List.getD_eq_getElem _ _ hidx] at h1
      exact le_antisymm h1 (hflatnn _ (List.getElem_mem hidx))
    rw [argmaxIdx_eq_zero_of_all_zero _ hall, unravel3_zero] at hv
    exact validCenter_origin hv

theorem hotspotLoop_mem_zero {a b c : ℕ} {ps : Coord} :
    ∀ (n : ℕ) (d : Vol3), HasShape d (a, b, c) → (∀ i j k, 0 ≤ get3 d i j k) →
      ∀ c' ∈ hotspotLoop (a, b, c) ps d n,
        get3 d c'.1 c'.2.1 c'.2.2 = 0 → halfPad ps = (0, 0, 0) := by
  intro n
  induction n with
  | zero =>
    intro d _ _ c' hc'
    simp [hotspotLoop] at hc'
  | succ m ih =>
    intro d hshape hnn c' hc' hzero
    rw [hotspotLoop_succ] at hc'
    have hshape' := hasShape_suppressBox hshape (a, b, c)
      (unravel3 (a, b, c) (argmaxIdx (flat3 d))) (halfPad ps)
    have hnn' := nonneg_suppressBox hnn (a, b, c)
      (unravel3 (a, b, c) (argmaxIdx (flat3 d))) (halfPad ps)
    by_cases hv : validCenter (a, b, c) ps (unravel3 (a, b, c) (argmaxIdx (flat3 d))) = true
    · rw [if_pos hv] at hc'
      rcases List.mem_cons.mp hc' with heq | htail
      · subst heq
        exact pad_zero_of_valid_argmax hshape hnn hv hzero
      · exact ih _ hshape' hnn' c' htail (suppressBox_preserves_zero hzero)
    · rw [if_neg hv] at hc'
      exact ih _ hshape' hnn' c' hc' (suppressBox_preserves_zero hzero)

theorem hotspotLoop_pairwise {a b c : ℕ} {ps : Coord} :
    ∀ (n : ℕ) (d : Vol3), HasShape d (a, b, c) → (∀ i j k, 0 ≤ get3 d i j k) →
      (hotspotLoop (a, b, c) ps d n).Pairwise
        (fun x y => ¬ inSuppBox (a, b, c) x (halfPad ps) y) := by
  intro n
  induction n with
  | zero =>
    intro d _ _
    simp [hotspotLoop]
  | succ m ih =>
    intro d hshape hnn
    rw [hotspotLoop_succ]
    have hshape' := hasShape_suppressBox hshape (a, b, c)
      (unravel3 (a, b, c) (argmaxIdx (flat3 d))) (halfPad ps)
    have hnn' := nonneg_suppressBox hnn (a, b, c)
      (unravel3 (a, b, c) (argmaxIdx (flat3 d))) (halfPad ps)
    have hrest := ih _ hshape' hnn'
    by_cases hv : validCenter (a, b, c) ps (unravel3 (a, b, c) (argmaxIdx (flat3 d))) = true
    · rw [if_pos hv]
      refine List.Pairwise.cons ?_ hrest
      intro c' hc' hbox
      have hz : get3 (suppressBox d (a, b, c) (unravel3 (a, b, c) (argmaxIdx (flat3 d)))
          (halfPad ps)) c'.1 c'.2.1 c'.2.2 = 0 := suppressBox_zero hbox
      have hpad := hotspotLoop_mem_zero m _ hshape' hnn' c' hc' hz
      rw [hpad] at hbox
      simp only [inSuppBox] at hbox
      omega
    · rw [if_neg hv]
      exact hrest

theorem hotspotLoop_all_zero {s ps : Coord} (hpad : 0 < ps.1 / 2) :
    ∀ (n : ℕ) (d : Vol3), (∀ i j k, get3 d i j k = 0) → hotspotLoop s ps d n = [] := by
  intro n
  induction n with
  | zero => intro d _; rfl
  | succ m ih =>
    intro d hz
    rw [hotspotLoop_succ]
    have hflat : ∀ x ∈ flat3 d, x = 0 := by
      intro x hx
      obtain ⟨i, j, k, hg⟩ := exists_get_of_mem_flat3 hx
      rw [← hg]; exact hz i j k
    rw [argmaxIdx_eq_zero_of_all_zero _ hflat, unravel3_zero]
    have hax : validAxis s.1 (ps.1 / 2) 0 = false := by
      unfold validAxis
      simp only [Nat.cast_zero, decide_eq_false_iff_not, not_not]
      left
      exact_mod_cast hpad
    have hvc : ¬ (validCenter s ps (0, 0, 0) = true) := by
      unfold validCenter
      rw [hax]
      simp
    rw [if_neg hvc]
    apply ih
    intro i j k
    exact suppressBox_preserves_zero (hz i j k)

/-! ### Density map lemmas -/

theorem get3_build3' (s : Coord) (f : ℕ → ℕ → ℕ → ℚ) (i j k : ℕ) :
    get3 (build3 s f) i j k = if i < s.1 ∧ j < s.2.1 ∧ k < s.2.2 then f i j k else 0 := by
  obtain ⟨a, b, c⟩ := s
  exact get3_build3 a b c f i j k

theorem densityMap_hasShape (m : Mask3) (ps : Coord) :
    HasShape (densityMap m ps) (shape3 m) := by
  unfold densityMap
  exact hasShape_build3 _ _

theorem densityMap_nonneg (m : Mask3) (ps : Coord) :
    ∀ i j k, 0 ≤ get3 (densityMap m ps) i j k := by
  intro i j k
  unfold densityMap
  rw [get3_build3']
  split
  · apply List.sum_nonneg
    intro x hx
    obtain ⟨dz, _, rfl⟩ := List.mem_map.mp hx
    apply List.sum_nonneg
    intro y hy
    obtain ⟨dy, _, rfl⟩ := List.mem_map.mp hy
    apply List.sum_nonneg
    intro z hz
    obtain ⟨dx, _, rfl⟩ := List.mem_map.mp hz
    unfold getZ
    split
    · rw [get3_castMask]
      split
      · exact zero_le_one
      · exact le_refl 0
    · exact le_refl 0
  · exact le_refl 0

theorem densityMap_all_false {m : Mask3} (hm : ∀ i j k, getM m i j k = false) (ps : Coord) :
    ∀ i j k, get3 (densityMap m ps) i j k = 0 := by
  intro i j k
  unfold densityMap
  rw [get3_build3']
  split
  · apply List.sum_eq_zero
    intro x hx
    obtain ⟨dz, _, rfl⟩ := List.mem_map.mp hx
    apply List.sum_eq_zero
    intro y hy
    obtain ⟨dy, _, rfl⟩ := List.mem_map.mp hy
    apply List.sum_eq_zero
    intro z hz
    obtain ⟨dx, _, rfl⟩ := List.mem_map.mp hz
    unfold getZ
    split
    · rw [get3_castMask, hm]
      rfl
    · rfl
  · rfl

/-! ### Replicate-volume lemmas (all-zero channels) -/

theorem getD_replicate {α : Type} (n : ℕ) (x : α) (i : ℕ) (d : α) :
    (List.replicate n x).getD i d = if i < n then x else d := by
  by_cases h : i < n
  · rw [List.getD_eq_getElem _ _ (by simpa using h), List.getElem_replicate, if_pos h]
  · rw [List.getD_eq_default _ _ (by simpa using Nat.le_of_not_lt h), if_neg h]

theorem flatten_replicate_replicate {α : Type} (n m : ℕ) (x : α) :
    (List.replicate n (List.replicate m x)).flatten = List.replicate (n * m) x := by
  induction n with
  | zero => simp
  | succ k ih =>
    rw [List.replicate_succ, List.flatten_cons, ih, ← List.replicate_add]
    congr 1
    ring

theorem flat3_replicate {α : Type} (a b c : ℕ) (x : α) :
    flat3 (List.replicate a (List.replicate b (List.replicate c x))) =
      List.replicate (a * b * c) x := by
  unfold flat3
  rw [List.map_replicate, flatten_replicate_replicate, flatten_replicate_replicate]
  congr 1
  ring

theorem map3_replicate {α β : Type} (f : α → β) (a b c : ℕ) (x : α) :
    map3 f (List.replicate a (List.replicate b (List.replicate c x))) =
      List.replicate a (List.replicate b (List.replicate c (f x))) := by
  unfold map3
  rw [List.map_replicate, List.map_replicate, List.map_replicate]

theorem foldl_min_replicate (k : ℕ) (x : ℚ) : (List.replicate k x).foldl min x = x := by
  induction k with
  | zero => rfl
  | succ n ih => rw [List.replicate_succ, List.foldl_cons, min_self]; exact ih

theorem foldl_max_replicate (k : ℕ) (x : ℚ) : (List.replicate k x).foldl max x = x := by
  induction k with
  | zero => rfl
  | succ n ih => rw [List.replicate_succ, List.foldl_cons, max_self]; exact ih

theorem listMin_replicate (N : ℕ) (x : ℚ) (h : 1 ≤ N) : listMin (List.replicate N x) = x := by
  cases N with
  | zero => omega
  | succ k =>
    rw [List.replicate_succ]
    show (List.replicate k x).foldl min x = x
    exact foldl_min_replicate k x

theorem listMax_replicate (N : ℕ) (x : ℚ) (h : 1 ≤ N) : listMax (List.replicate N x) = x := by
  cases N with
  | zero => omega
  | succ k =>
    rw [List.replicate_succ]
    show (List.replicate k x).foldl max x = x
    exact foldl_max_replicate k x

theorem percentileValue_replicate_zero (N : ℕ) (p : ℚ) :
    percentileValue (List.replicate N (0 : ℚ)) p = 0 := by
  have hsort : ∀ i : ℕ,
      (List.insertionSort (· ≤ ·) (List.replicate N (0 : ℚ))).getD i 0 = 0 := by
    intro i
    by_cases hi : i < (List.insertionSort (· ≤ ·) (List.replicate N (0 : ℚ))).length
    · rw [List.getD_eq_getElem _ _ hi]
      exact List.eq_of_mem_replicate
        ((List.perm_insertionSort _ _).subset (List.getElem_mem hi))
    · exact List.getD_eq_default _ _ (Nat.le_of_not_lt hi)
  simp only [percentileValue]
  rw [hsort, hsort]
  ring

theorem normalize3_zeros (a b c : ℕ) (h : 1 ≤ a * b * c) :
    normalize3 (zerosVol a b c) = zerosVol a b c := by
  have hflat : flat3 (zerosVol a b c) = List.replicate (a * b * c) (0 : ℚ) := by
    unfold zerosVol
    exact flat3_replicate a b c 0
  unfold normalize3
  rw [hflat, listMin_replicate _ _ h, listMax_replicate _ _ h]
  unfold zerosVol
  rw [map3_replicate]
  norm_num

theorem channelMask_zeros (a b c : ℕ) (h : 1 ≤ a * b * c) (p : ℚ) :
    channelMask (zerosVol a b c) p = falseMask a b c := by
  unfold channelMask
  rw [normalize3_zeros a b c h]
  have hflat : flat3 (zerosVol a b c) = List.replicate (a * b * c) (0 : ℚ) := by
    unfold zerosVol
    exact flat3_replicate a b c 0
  rw [hflat, percentileValue_replicate_zero]
  unfold thresholdMask zerosVol falseMask
  rw [map3_replicate]
  have hd : decide ((0 : ℚ) < 0) = false := decide_eq_false (lt_irrefl 0)
  rw [hd]

theorem zipW_replicate {α β γ : Type} (f : α → β → γ) (n : ℕ) (x : α) (y : β) :
    List.zipWith f (List.replicate n x) (List.replicate n y) =
      List.replicate n (f x y) := by
  induction n with
  | zero => rfl
  | succ k ih => simp [List.replicate_succ, ih]

theorem zipG_falseMask (a b c : ℕ) :
    zipG (· && ·) (falseMask a b c) (falseMask a b c) = falseMask a b c := by
  unfold zipG falseMask
  simp only [zipW_replicate, Bool.and_self]

theorem countTrue_replicate_false (n : ℕ) : countTrue (List.replicate n false) = 0 := by
  unfold countTrue
  rw [List.countP_eq_zero]
  intro b hb
  rw [List.eq_of_mem_replicate hb]
  simp

theorem getM_falseMask (a b c : ℕ) (i j k : ℕ) : getM (falseMask a b c) i j k = false := by
  unfold getM getG falseMask
  rw [getD_replicate]
  by_cases hi : i < a
  · rw [if_pos hi, getD_replicate]
    by_cases hj : j < b
    · rw [if_pos hj, getD_replicate]
      by_cases hk : k < c
      · rw [if_pos hk]
      · rw [if_neg hk]
    · rw [if_neg hj, List.getD_nil]
  · rw [if_neg hi, List.getD_nil, List.getD_nil]

theorem shape3_falseMask (a b c : ℕ) (ha : 1 ≤ a) (hb : 1 ≤ b) :
    shape3 (falseMask a b c) = (a, b, c) := by
  unfold shape3 falseMask
  rw [List.length_replicate, getD_replicate, if_pos (by omega), getD_replicate,
    if_pos (by omega), List.length_replicate, List.length_replicate]

theorem score_zeros (a b c : ℕ) (ha : 1 ≤ a) (hb : 1 ≤ b) (hc : 1 ≤ c) :
    calculate_colocalization_score (zerosVol a b c) (zerosVol a b c) 50 =
      .ok (0, falseMask a b c) := by
  have habc : 1 ≤ a * b * c := Nat.mul_pos (Nat.mul_pos ha hb) hc
  have hflat : flat3 (zerosVol a b c) = List.replicate (a * b * c) (0 : ℚ) := by
    unfold zerosVol
    exact flat3_replicate a b c 0
  have hne : ¬(flat3 (zerosVol a b c) = [] ∨ flat3 (zerosVol a b c) = []) := by
    rw [hflat]
    simp only [or_self, List.replicate_eq_nil_iff]
    omega
  simp only [calculate_colocalization_score]
  rw [if_neg hne, channelMask_zeros a b c habc, zipG_falseMask]
  have hcount : countTrue (flat3 (falseMask a b c)) = 0 := by
    unfold falseMask
    rw [flat3_replicate]
    exact countTrue_replicate_false _
  rw [hcount, if_neg (lt_irrefl 0)]

theorem hotspots_falseMask (a b c : ℕ) (ha : 1 ≤ a) (hb : 1 ≤ b) (hc : 1 ≤ c)
    (count : ℤ) :
    find_colocalization_hotspots (falseMask a b c) count (64, 64, 64) = .ok [] := by
  have hd0 : ∀ i j k, get3 (densityMap (falseMask a b c) (64, 64, 64)) i j k = 0 :=
    densityMap_all_false (getM_falseMask a b c) _
  simp only [find_colocalization_hotspots]
  rw [if_neg (by norm_num)]
  have hshape_d : HasShape (densityMap (falseMask a b c) (64, 64, 64))
      (shape3 (falseMask a b c)) := densityMap_hasShape _ _
  rw [shape3_falseMask a b c ha hb] at hshape_d
  have hlen : (flat3 (densityMap (falseMask a b c) (64, 64, 64))).length = a * b * c :=
    flat3_length hshape_d
  have hflatne : flat3 (densityMap (falseMask a b c) (64, 64, 64)) ≠ [] := by
    intro hnil
    have hpos : 0 < a * b * c := Nat.mul_pos (Nat.mul_pos ha hb) hc
    rw [← hlen] at hpos
    rw [hnil] at hpos
    simp at hpos
  rw [if_neg (fun hcon => hflatne hcon.2)]
  congr 1
  exact @hotspotLoop_all_zero (shape3 (falseMask a b c)) (64, 64, 64) (by norm_num)
    count.toNat _ hd0

/-! ### Claim theorems: C1, C2, C3, C7, C10 -/

/-- C1 (counterexample): on the concrete mask `maskCE` with count 2 and patch
size (2,2,4), `find_colocalization_hotspots` returns the centers (1,1,2) and
(1,1,4), whose axis-aligned boxes of half-extent `patch_size//2` per axis
overlap (both as closed boxes and as the half-open voxel footprints the
patches actually cover), contradicting the claim that no two returned centers
have overlapping boxes. -/
theorem C1_counterexample :
    find_colocalization_hotspots maskCE 2 (2, 2, 4) = .ok [(1, 1, 2), (1, 1, 4)] ∧
    boxesOverlap (halfPad (2, 2, 4)) (1, 1, 2) (1, 1, 4) ∧
    footprintsOverlap (halfPad (2, 2, 4)) (1, 1, 2) (1, 1, 4) := by
  with_unfolding_all decide

/-- C1 (amended): whatever the mask, count and patch size, whenever
`find_colocalization_hotspots` returns a list of centers, no later center lies
inside the clamped half-open suppression box
`[c - patch_size//2, c + patch_size//2)` of an earlier center — the guarantee
the suppression step actually provides; boxes of half-extent `patch_size//2`
(and the extracted patch footprints) can still overlap, as centers on the
excluded high face of a suppression box remain selectable. -/
theorem C1_amended_no_center_in_suppression (mask : Mask3) (count : ℤ) (ps : Coord)
    (l : List Coord) (h : find_colocalization_hotspots mask count ps = .ok l) :
    l.Pairwise (fun x y => ¬ inSuppBox (shape3 mask) x (halfPad ps) y) := by
  simp only [find_colocalization_hotspots] at h
  by_cases h1 : ps.1 / 2 = 0 ∨ ps.2.1 / 2 = 0 ∨ ps.2.2 / 2 = 0
  · rw [if_pos h1] at h
    simp at h
  · rw [if_neg h1] at h
    by_cases h2 : count.toNat ≠ 0 ∧ flat3 (densityMap mask ps) = []
    · rw [if_pos h2] at h
      simp at h
    · rw [if_neg h2] at h
      have hl : hotspotLoop (shape3 mask) ps (densityMap mask ps) count.toNat = l := by
        simpa using h
      rw [← hl]
      exact hotspotLoop_pairwise count.toNat _ (densityMap_hasShape mask ps)
        (densityMap_nonneg mask ps)

/-- Witness for the amended C1 theorem at the concrete run of
`C1_counterexample`'s inputs. -/
theorem C1_amended_witness :
    ([(1, 1, 2), (1, 1, 4)] : List Coord).Pairwise
      (fun x y => ¬ inSuppBox (shape3 maskCE) x (halfPad (2, 2, 4)) y) :=
  C1_amended_no_center_in_suppression maskCE 2 (2, 2, 4) _ (by with_unfolding_all decide)

/-- C2 (counterexample): a non-positive requested patch count is one of the
invalid inputs the claim says must raise `InvalidInput` before any computation;
instead `find_colocalization_hotspots` on a valid 1 x 1 x 1 mask with count -1
completes normally and produces the (empty) output list. -/
theorem C2_counterexample :
    find_colocalization_hotspots [[[true]]] (-1) (2, 2, 4) = .ok [] ∧
    (find_colocalization_hotspots [[[true]]] (-1) (2, 2, 4)).isOk = true := by
  with_unfolding_all decide

/-- C2 (amended): the code performs no input validation; for every nonempty
mask and every patch size with all extents at least 2, a non-positive patch
count makes `find_colocalization_hotspots` return `.ok []` — a normal, empty
result, with no error of any kind raised. -/
theorem C2_amended_no_validation (mask : Mask3) (count : ℤ) (ps : Coord)
    ( _hmask : flat3 mask ≠ []) (hps1 : 2 ≤ ps.1) (hps2 : 2 ≤ ps.2.1)
    (hps3 : 2 ≤ ps.2.2) (hcount : count ≤ 0) :
    find_colocalization_hotspots mask count ps = .ok [] := by
  simp only [find_colocalization_hotspots]
  rw [if_neg (by push_neg; refine ⟨by omega, by omega, by omega⟩)]
  have hn : count.toNat = 0 := by omega
  rw [if_neg (fun hcon => hcon.1 hn), hn]
  rfl

/-- Witness for the amended C2 theorem. -/
theorem C2_amended_witness :
    find_colocalization_hotspots [[[true]]] 0 (2, 2, 4) = .ok [] :=
  C2_amended_no_validation [[[true]]] 0 (2, 2, 4) (by with_unfolding_all decide)
    (by decide) (by decide) (by decide) (by decide)

/-- C3 (counterexample): on the concrete mask `maskCE` with patch size
(2,2,4), the first candidate is (1,1,2); the in-bounds coordinate (1,1,4) lies
inside the closed axis-aligned box of half-extent `patch_size//2` around it
(clamped to array bounds), yet after the suppression step the density there is
still nonzero — and that coordinate is in fact selected at the very next
iteration, contradicting both the "zero at every coordinate inside the box"
and the "never selected again" parts of the claim. -/
theorem C3_counterexample :
    inClosedBox (unravel3 (shape3 maskCE) (argmaxIdx (flat3 (densityMap maskCE (2, 2, 4)))))
      (halfPad (2, 2, 4)) (1, 1, 4) ∧
    (1 : ℕ) < (shape3 maskCE).1 ∧ (1 : ℕ) < (shape3 maskCE).2.1 ∧
      (4 : ℕ) < (shape3 maskCE).2.2 ∧
    get3 (suppressBox (densityMap maskCE (2, 2, 4)) (shape3 maskCE)
      (unravel3 (shape3 maskCE) (argmaxIdx (flat3 (densityMap maskCE (2, 2, 4)))))
      (halfPad (2, 2, 4))) 1 1 4 ≠ 0 ∧
    find_colocalization_hotspots maskCE 2 (2, 2, 4) = .ok
      [unravel3 (shape3 maskCE) (argmaxIdx (flat3 (densityMap maskCE (2, 2, 4)))),
        (1, 1, 4)] := by
  with_unfolding_all decide

/-- C3 (amended): after the suppression step the density is zero at every
coordinate of the clamped *half-open* box
`[max(0, c - patch_size//2), min(shape, c + patch_size//2))` around the
candidate (the high-index face `c + patch_size//2` of the closed box is
excluded); this holds for rejected candidates exactly as for accepted ones,
since suppression runs unconditionally. -/
theorem C3_amended_halfopen_suppression (d : Vol3) (vshape c pad p : Coord)
    (hp : inSuppBox vshape c pad p) :
    get3 (suppressBox d vshape c pad) p.1 p.2.1 p.2.2 = 0 :=
  suppressBox_zero hp

/-- Witness for the amended C3 theorem on the concrete first suppression of
the `maskCE` run. -/
theorem C3_amended_witness :
    get3 (suppressBox (densityMap maskCE (2, 2, 4)) (shape3 maskCE) (1, 1, 2)
      (halfPad (2, 2, 4))) 1 1 3 = 0 :=
  C3_amended_halfopen_suppression (densityMap maskCE (2, 2, 4)) (shape3 maskCE)
    (1, 1, 2) (halfPad (2, 2, 4)) (1, 1, 3) (by with_unfolding_all decide)

/-- C7: for every pair of equal-shaped all-zero channel volumes (any positive
extents) with the default percentile 50, `calculate_colocalization_score`
returns coefficient exactly 0 together with the all-false colocalization mask
(so `mask1` is entirely false), and `find_colocalization_hotspots` on that
all-false mask (default patch size (64,64,64), any count) returns zero valid
centers; both calls return `.ok`, i.e. no exception is raised on this path. -/
theorem C7_all_zero_pipeline (a b c : ℕ) (count : ℤ)
    (ha : 1 ≤ a) (hb : 1 ≤ b) (hc : 1 ≤ c) :
    calculate_colocalization_score (zerosVol a b c) (zerosVol a b c) 50 =
      .ok (0, falseMask a b c) ∧
    find_colocalization_hotspots (falseMask a b c) count (64, 64, 64) = .ok [] :=
  ⟨score_zeros a b c ha hb hc, hotspots_falseMask a b c ha hb hc count⟩

/-- Witness for C7 at a concrete 1 x 1 x 2 all-zero volume and count 3. -/
theorem C7_witness :
    calculate_colocalization_score (zerosVol 1 1 2) (zerosVol 1 1 2) 50 =
      .ok (0, falseMask 1 1 2) ∧
    find_colocalization_hotspots (falseMask 1 1 2) 3 (64, 64, 64) = .ok [] :=
  C7_all_zero_pipeline 1 1 2 3 (by decide) (by decide) (by decide)

/-- C10: `find_colocalization_hotspots` never modifies its input mask: in the
store-passing model, where the loop's in-place writes explicitly target the
density-map array freshly derived from the mask by `astype(float)` and
`convolve`, the mask cell of the store is unchanged by the whole call, for
every mask, count and patch size. -/
theorem C10_mask_unmodified (mask : Mask3) (count : ℤ) (ps : Coord) :
    (find_colocalization_hotspots_store mask count ps).2.coloc_mask = mask := by
  unfold find_colocalization_hotspots_store
  suffices h : ∀ (n : ℕ) (st : HotspotStore),
      (hotspotLoopS (shape3 mask) ps st n).2.coloc_mask = st.coloc_mask by
    exact h count.toNat ⟨mask, densityMap mask ps⟩
  intro n
  induction n with
  | zero => intro st; rfl
  | succ m ih =>
    intro st
    exact ih ⟨st.coloc_mask, suppressBox st.density_map (shape3 mask)
      (unravel3 (shape3 mask) (argmaxIdx (flat3 st.density_map))) (halfPad ps)⟩

/-! ### setRow/setMat/setVol and slice lemmas -/

theorem setRow_nil_left (s : List ℚ) : setRow [] s = [] := by
  cases s <;> rfl

theorem setRow_nil_right (b : List ℚ) : setRow b [] = b := by
  cases b <;> rfl

theorem setMat_nil_right (b : List (List ℚ)) : setMat b [] = b := by
  cases b <;> rfl

theorem setVol_nil_right (b : Vol3) : setVol b [] = b := by
  cases b <;> rfl

theorem length_setRow (b s : List ℚ) : (setRow b s).length = b.length := by
  induction s generalizing b with
  | nil => rw [setRow_nil_right]
  | cons y ss ih =>
    cases b with
    | nil => rfl
    | cons x bs => simp [setRow, ih]

theorem length_setMat (b s : List (List ℚ)) : (setMat b s).length = b.length := by
  induction s generalizing b with
  | nil => rw [setMat_nil_right]
  | cons y ss ih =>
    cases b with
    | nil => rfl
    | cons x bs => simp [setMat, ih]

theorem length_setVol (b s : Vol3) : (setVol b s).length = b.length := by
  induction s generalizing b with
  | nil => rw [setVol_nil_right]
  | cons y ss ih =>
    cases b with
    | nil => rfl
    | cons x bs => simp [setVol, ih]

theorem getD_setRow (b s : List ℚ) (k : ℕ) :
    (setRow b s).getD k 0 =
      if k < s.length ∧ k < b.length then s.getD k 0 else b.getD k 0 := by
  induction b generalizing s k with
  | nil =>
    rw [setRow_nil_left, List.getD_nil, if_neg (by simp)]
  | cons x bs ih =>
    cases s with
    | nil =>
      rw [setRow_nil_right, if_neg (by simp)]
    | cons y ss =>
      cases k with
      | zero =>
        show y = _
        rw [if_pos (by constructor <;> simp)]
        rfl
      | succ m =>
        show (y :: setRow bs ss).getD (m + 1) 0 = _
        rw [List.getD_cons_succ, ih]
        by_cases h : m < ss.length ∧ m < bs.length
        · rw [if_pos h, if_pos (by simp only [List.length_cons]; omega),
            List.getD_cons_succ]
        · rw [if_neg h, if_neg (by simp only [List.length_cons]; omega),
            List.getD_cons_succ]

theorem getD_setMat (b s : List (List ℚ)) (j : ℕ) :
    (setMat b s).getD j [] = setRow (b.getD j []) (s.getD j []) := by
  induction b generalizing s j with
  | nil =>
    have hb : setMat [] s = [] := by cases s <;> rfl
    rw [hb, List.getD_nil, setRow_nil_left]
  | cons p bs ih =>
    cases s with
    | nil =>
      show (p :: bs).getD j [] = setRow ((p :: bs).getD j []) (([] : List (List ℚ)).getD j [])
      rw [List.getD_nil, setRow_nil_right]
    | cons q ss =>
      cases j with
      | zero =>
        show setRow p q = _
        rfl
      | succ m =>
        show (setRow p q :: setMat bs ss).getD (m + 1) [] = _
        rw [List.getD_cons_succ, List.getD_cons_succ, List.getD_cons_succ]
        exact ih ss m

theorem getD_setVol (b s : Vol3) (i : ℕ) :
    (setVol b s).getD i [] = setMat (b.getD i []) (s.getD i []) := by
  induction b generalizing s i with
  | nil =>
    have hb : setVol [] s = [] := by cases s <;> rfl
    have hm : ∀ t : List (List ℚ), setMat [] t = [] := by intro t; cases t <;> rfl
    rw [hb, List.getD_nil, hm]
  | cons p bs ih =>
    cases s with
    | nil =>
      show (p :: bs).getD i [] = setMat ((p :: bs).getD i []) (([] : Vol3).getD i [])
      rw [List.getD_nil, setMat_nil_right]
    | cons q ss =>
      cases i with
      | zero =>
        show setMat p q = _
        rfl
      | succ m =>
        show (setMat p q :: setVol bs ss).getD (m + 1) [] = _
        rw [List.getD_cons_succ, List.getD_cons_succ, List.getD_cons_succ]
        exact ih ss m

theorem get3_setVol (b s : Vol3) (i j k : ℕ) :
    get3 (setVol b s) i j k =
      if k < ((s.getD i []).getD j []).length ∧ k < ((b.getD i []).getD j []).length
      then get3 s i j k else get3 b i j k := by
  unfold get3 getG
  rw [getD_setVol, getD_setMat, getD_setRow]

theorem mem_setMat_length (b s : List (List ℚ)) :
    ∀ r ∈ setMat b s, ∃ r' ∈ b, r.length = r'.length := by
  induction b generalizing s with
  | nil =>
    intro r hr
    have hb : setMat [] s = [] := by cases s <;> rfl
    rw [hb] at hr
    simp at hr
  | cons rb bs ih =>
    intro r hr
    cases s with
    | nil =>
      rw [setMat_nil_right] at hr
      exact ⟨r, hr, rfl⟩
    | cons rs ss =>
      rcases List.mem_cons.mp hr with rfl | hr'
      · exact ⟨rb, List.mem_cons_self rb bs, length_setRow rb rs⟩
      · obtain ⟨r', hr', hlen⟩ := ih ss r hr'
        exact ⟨r', List.mem_cons_of_mem _ hr', hlen⟩

theorem mem_setVol (b s : Vol3) :
    ∀ p ∈ setVol b s, ∃ p' ∈ b, p.length = p'.length ∧
      ∀ r ∈ p, ∃ r' ∈ p', r.length = r'.length := by
  induction b generalizing s with
  | nil =>
    intro p hp
    have hb : setVol [] s = [] := by cases s <;> rfl
    rw [hb] at hp
    simp at hp
  | cons pb bs ih =>
    intro p hp
    cases s with
    | nil =>
      rw [setVol_nil_right] at hp
      exact ⟨p, hp, rfl, fun r hr => ⟨r, hr, rfl⟩⟩
    | cons psrc ss =>
      rcases List.mem_cons.mp hp with rfl | hp'
      · exact ⟨pb, List.mem_cons_self pb bs, length_setMat pb psrc,
          mem_setMat_length pb psrc⟩
      · obtain ⟨p', hp', h1, h2⟩ := ih ss p hp'
        exact ⟨p', List.mem_cons_of_mem _ hp', h1, h2⟩

theorem hasShape_setVol {b : Vol3} {sp : Coord} (hb : HasShape b sp) (s : Vol3) :
    HasShape (setVol b s) sp := by
  refine ⟨by rw [length_setVol]; exact hb.1, ?_⟩
  intro p hp
  obtain ⟨p', hp', hplen, hrows⟩ := mem_setVol b s p hp
  refine ⟨hplen.trans (hb.2 p' hp').1, ?_⟩
  intro r hr
  obtain ⟨r', hr', hrlen⟩ := hrows r hr
  exact hrlen.trans ((hb.2 p' hp').2 r' hr')

theorem hasShape_zeros3 (s : Coord) : HasShape (zeros3 s) s := by
  refine ⟨by simp [zeros3], ?_⟩
  intro p hp
  rw [List.eq_of_mem_replicate hp]
  refine ⟨by simp, ?_⟩
  intro r hr
  rw [List.eq_of_mem_replicate hr]
  simp

theorem get3_zeros3 (s : Coord) (i j k : ℕ) : get3 (zeros3 s) i j k = 0 := by
  unfold zeros3 get3 getG
  rw [getD_replicate]
  by_cases hi : i < s.1
  · rw [if_pos hi, getD_replicate]
    by_cases hj : j < s.2.1
    · rw [if_pos hj, getD_replicate]
      by_cases hk : k < s.2.2
      · rw [if_pos hk]
      · rw [if_neg hk]
    · rw [if_neg hj, List.getD_nil]
  · rw [if_neg hi, List.getD_nil, List.getD_nil]

theorem hasShape_slice3 {v : Vol3} {sv : Coord} (hv : HasShape v sv)
    (z0 z1 y0 y1 x0 x1 : ℕ) :
    HasShape (slice3 v z0 z1 y0 y1 x0 x1)
      (min (z1 - z0) (sv.1 - z0), min (y1 - y0) (sv.2.1 - y0),
        min (x1 - x0) (sv.2.2 - x0)) := by
  constructor
  · show (slice3 v z0 z1 y0 y1 x0 x1).length = _
    unfold slice3 sliceList
    rw [List.length_map, List.length_take, List.length_drop, hv.1]
  · intro p hp
    unfold slice3 at hp
    obtain ⟨p0, hp0, rfl⟩ := List.mem_map.mp hp
    have hp0v : p0 ∈ v := by
      unfold sliceList at hp0
      exact List.mem_of_mem_drop (List.mem_of_mem_take hp0)
    constructor
    · show ((sliceList p0 y0 y1).map _).length = _
      unfold sliceList
      rw [List.length_map, List.length_take, List.length_drop, (hv.2 p0 hp0v).1]
    · intro r hr
      obtain ⟨r0, hr0, rfl⟩ := List.mem_map.mp hr
      have hr0p : r0 ∈ p0 := by
        unfold sliceList at hr0
        exact List.mem_of_mem_drop (List.mem_of_mem_take hr0)
      show (sliceList r0 x0 x1).length = _
      unfold sliceList
      rw [List.length_take, List.length_drop, (hv.2 p0 hp0v).2 r0 hr0p]

theorem hasShape_shape3 {α : Type} {v : Grid α} {s : Coord} (hv : HasShape v s) :
    HasShape v (shape3 v) := by
  refine ⟨rfl, ?_⟩
  intro p hp
  have hvne : v ≠ [] := List.ne_nil_of_mem hp
  have h0 : v.getD 0 [] ∈ v := by
    rw [List.getD_eq_getElem _ _ (List.length_pos.mpr hvne)]
    exact List.getElem_mem _
  constructor
  · show p.length = (v.getD 0 []).length
    rw [(hv.2 p hp).1, ← (hv.2 _ h0).1]
  · intro r hr
    have h1 : 0 < (v.getD 0 []).length := by
      rw [(hv.2 _ h0).1, ← (hv.2 p hp).1]
      exact List.length_pos.mpr (List.ne_nil_of_mem hr)
    have h00 : (v.getD 0 []).getD 0 [] ∈ v.getD 0 [] := by
      rw [List.getD_eq_getElem _ _ h1]
      exact List.getElem_mem _
    show r.length = ((v.getD 0 []).getD 0 []).length
    rw [(hv.2 p hp).2 r hr, ← (hv.2 _ h0).2 _ h00]

theorem rect_patchSlice {v : Vol3} (hv : Rect v) (ctr ps : Coord) :
    HasShape (patchSlice v ctr ps) (shape3 (patchSlice v ctr ps)) := by
  unfold patchSlice
  exact hasShape_shape3 (hasShape_slice3 hv _ _ _ _ _ _)

/-! ### extract_patch shape lemmas and claims C4, C5, C9 -/

theorem extract_patch_hasShape {v : Vol3} (hv : Rect v) (ctr ps : Coord) :
    HasShape (extract_patch v ctr ps) ps := by
  simp only [extract_patch]
  by_cases hsh : shape3 (patchSlice v ctr ps) = ps
  · rw [if_pos hsh]
    have hr := rect_patchSlice hv ctr ps
    rw [hsh] at hr
    exact hr
  · rw [if_neg hsh]
    exact hasShape_setVol (hasShape_zeros3 ps) _

theorem hasShape_shape3_eq {α : Type} {x : Grid α} {sps ps : Coord}
    (hx : HasShape x sps) (hsh : shape3 x = ps) (h1 : 0 < ps.1) (h2 : 0 < ps.2.1) :
    sps = ps := by
  have e1 : x.length = ps.1 := congrArg (fun t => t.1) hsh
  have e2 : (x.getD 0 []).length = ps.2.1 := congrArg (fun t => t.2.1) hsh
  have e3 : ((x.getD 0 []).getD 0 []).length = ps.2.2 := congrArg (fun t => t.2.2) hsh
  have hlen1 : 0 < x.length := by omega
  have hmem : x.getD 0 [] ∈ x := by
    rw [List.getD_eq_getElem _ _ hlen1]
    exact List.getElem_mem _
  have hp := hx.2 _ hmem
  have hlen2 : 0 < (x.getD 0 []).length := by omega
  have hmem2 : (x.getD 0 []).getD 0 [] ∈ x.getD 0 [] := by
    rw [List.getD_eq_getElem _ _ hlen2]
    exact List.getElem_mem _
  obtain ⟨a, b, c⟩ := sps
  have ha : a = ps.1 := hx.1.symm.trans e1
  have hb : b = ps.2.1 := hp.1.symm.trans e2
  have hc : c = ps.2.2 := (hp.2 _ hmem2).symm.trans e3
  obtain ⟨pa, pb, pc⟩ := ps
  simp only [Prod.mk.injEq]
  exact ⟨ha, hb, hc⟩

theorem extract_patch4_hasShape {v4 : Vol4} {n : ℕ} {sv : Coord}
    (h4 : HasShape4 v4 n sv) (ctr ps : Coord)
    (hp1 : 0 < ps.1) (hp2 : 0 < ps.2.1) ( _hp3 : 0 < ps.2.2) :
    HasShape4 (extract_patch4 v4 ctr ps) n ps := by
  simp only [extract_patch4]
  cases v4 with
  | nil =>
    have hne : shape3 ((([] : Vol4).map (fun ch => slice3 ch
        (clampBounds (shape3 (([] : Vol4).getD 0 [])).1 ctr.1 (ps.1 / 2)).1
        (clampBounds (shape3 (([] : Vol4).getD 0 [])).1 ctr.1 (ps.1 / 2)).2
        (clampBounds (shape3 (([] : Vol4).getD 0 [])).2.1 ctr.2.1 (ps.2.1 / 2)).1
        (clampBounds (shape3 (([] : Vol4).getD 0 [])).2.1 ctr.2.1 (ps.2.1 / 2)).2
        (clampBounds (shape3 (([] : Vol4).getD 0 [])).2.2 ctr.2.2 (ps.2.2 / 2)).1
        (clampBounds (shape3 (([] : Vol4).getD 0 [])).2.2 ctr.2.2 (ps.2.2 / 2)).2)).getD
          0 []) ≠ ps := by
      intro heq
      have : (0 : ℕ) = ps.1 := congrArg (fun t => t.1) heq
      omega
    rw [if_neg hne]
    exact ⟨by simpa using h4.1, by simp⟩
  | cons c0 rest =>
    have hch : ∀ ch ∈ c0 :: rest, HasShape ch sv := h4.2
    have hc0 : (c0 :: rest).getD 0 [] = c0 := rfl
    rw [hc0]
    set zb := clampBounds (shape3 c0).1 ctr.1 (ps.1 / 2) with hzb
    set yb := clampBounds (shape3 c0).2.1 ctr.2.1 (ps.2.1 / 2) with hyb
    set xb := clampBounds (shape3 c0).2.2 ctr.2.2 (ps.2.2 / 2) with hxb
    set msh : Coord := (min (zb.2 - zb.1) (sv.1 - zb.1), min (yb.2 - yb.1) (sv.2.1 - yb.1),
      min (xb.2 - xb.1) (sv.2.2 - xb.1)) with hmsh
    have hslice : ∀ ch ∈ c0 :: rest,
        HasShape (slice3 ch zb.1 zb.2 yb.1 yb.2 xb.1 xb.2) msh := by
      intro ch hmem
      exact hasShape_slice3 (hch ch hmem) zb.1 zb.2 yb.1 yb.2 xb.1 xb.2
    have hhead : ((c0 :: rest).map (fun ch => slice3 ch zb.1 zb.2 yb.1 yb.2 xb.1
        xb.2)).getD 0 [] = slice3 c0 zb.1 zb.2 yb.1 yb.2 xb.1 xb.2 := rfl
    rw [hhead]
    by_cases hsh : shape3 (slice3 c0 zb.1 zb.2 yb.1 yb.2 xb.1 xb.2) = ps
    · rw [if_pos hsh]
      have hmshps : msh = ps :=
        hasShape_shape3_eq (hslice c0 (List.mem_cons_self c0 rest)) hsh hp1 hp2
      refine ⟨by rw [List.length_map]; exact h4.1, ?_⟩
      intro chs hchs
      obtain ⟨ch, hmem, rfl⟩ := List.mem_map.mp hchs
      rw [← hmshps]
      exact hslice ch hmem
    · rw [if_neg hsh]
      refine ⟨by rw [List.length_map, List.length_map]; exact h4.1, ?_⟩
      intro chs hchs
      obtain ⟨ch0, _, rfl⟩ := List.mem_map.mp hchs
      exact hasShape_setVol (hasShape_zeros3 ps) _

/-- C4: `extract_patch` on a rectangular single-channel volume, any in-bounds
center (including centers on the exact volume boundary) and any positive
patch size, returns an array of exactly shape `patch_size`; on a
multi-channel volume it returns `C` channels of exactly shape `patch_size`. -/
theorem C4_extract_patch_exact_shape :
    (∀ (v : Vol3) (ctr ps : Coord), Rect v →
      ctr.1 < (shape3 v).1 → ctr.2.1 < (shape3 v).2.1 → ctr.2.2 < (shape3 v).2.2 →
      0 < ps.1 → 0 < ps.2.1 → 0 < ps.2.2 →
      HasShape (extract_patch v ctr ps) ps) ∧
    (∀ (v4 : Vol4) (n : ℕ) (sv ctr ps : Coord), HasShape4 v4 n sv →
      ctr.1 < sv.1 → ctr.2.1 < sv.2.1 → ctr.2.2 < sv.2.2 →
      0 < ps.1 → 0 < ps.2.1 → 0 < ps.2.2 →
      HasShape4 (extract_patch4 v4 ctr ps) n ps) := by
  constructor
  · intro v ctr ps hv _ _ _ _ _ _
    exact extract_patch_hasShape hv ctr ps
  · intro v4 n sv ctr ps h4 _ _ _ hp1 hp2 hp3
    exact extract_patch4_hasShape h4 ctr ps hp1 hp2 hp3

/-- Witness for C4 with a boundary center on a concrete 2 x 2 x 2 volume. -/
theorem C4_witness :
    HasShape (extract_patch volW (1, 1, 1) (2, 2, 2)) (2, 2, 2) ∧
    HasShape4 (extract_patch4 [volW, volW] (1, 1, 1) (2, 2, 2)) 2 (2, 2, 2) :=
  ⟨C4_extract_patch_exact_shape.1 volW (1, 1, 1) (2, 2, 2)
      (by with_unfolding_all decide) (by decide) (by decide) (by decide)
      (by decide) (by decide) (by decide),
    C4_extract_patch_exact_shape.2 [volW, volW] 2 (2, 2, 2) (1, 1, 1) (2, 2, 2)
      (by with_unfolding_all decide) (by decide) (by decide) (by decide)
      (by decide) (by decide) (by decide)⟩

/-- C5: whenever the clamped source slice is smaller than `patch_size` along
some axis, the returned patch holds the slice data at the low-index
(top-left-aligned) origin — position (i,j,k) carries the slice entry exactly
when each index is below the slice's extent — and every other position is
exactly zero, so padding sits only at the high-index end of each axis. -/
theorem C5_padding_low_corner (v : Vol3) (ctr ps : Coord) (hv : Rect v)
    (hneq : shape3 (patchSlice v ctr ps) ≠ ps) (i j k : ℕ)
    (hi : i < ps.1) (hj : j < ps.2.1) (hk : k < ps.2.2) :
    get3 (extract_patch v ctr ps) i j k =
      if i < (shape3 (patchSlice v ctr ps)).1 ∧ j < (shape3 (patchSlice v ctr ps)).2.1 ∧
          k < (shape3 (patchSlice v ctr ps)).2.2
      then get3 (patchSlice v ctr ps) i j k else 0 := by
  have hrect := rect_patchSlice hv ctr ps
  simp only [extract_patch]
  rw [if_neg hneq, get3_setVol]
  have hbrow : ((zeros3 ps).getD i []).getD j [] = List.replicate ps.2.2 (0 : ℚ) := by
    unfold zeros3
    rw [getD_replicate, if_pos hi, getD_replicate, if_pos hj]
  rw [hbrow, List.length_replicate, get3_zeros3]
  by_cases hc : i < (shape3 (patchSlice v ctr ps)).1 ∧
      j < (shape3 (patchSlice v ctr ps)).2.1 ∧ k < (shape3 (patchSlice v ctr ps)).2.2
  · have hil : i < (patchSlice v ctr ps).length := hc.1
    have hplane : (patchSlice v ctr ps).getD i [] ∈ patchSlice v ctr ps := by
      rw [List.getD_eq_getElem _ _ hil]
      exact List.getElem_mem _
    have hpl := hrect.2 _ hplane
    have hjl : j < ((patchSlice v ctr ps).getD i []).length := by
      rw [hpl.1]
      exact hc.2.1
    have hrowmem : ((patchSlice v ctr ps).getD i []).getD j [] ∈
        (patchSlice v ctr ps).getD i [] := by
      rw [List.getD_eq_getElem _ _ hjl]
      exact List.getElem_mem _
    have hrl : (((patchSlice v ctr ps).getD i []).getD j []).length =
        (shape3 (patchSlice v ctr ps)).2.2 := hpl.2 _ hrowmem
    rw [if_pos ⟨by rw [hrl]; exact hc.2.2, hk⟩, if_pos hc]
  · have hncon : ¬(k < (((patchSlice v ctr ps).getD i []).getD j []).length ∧
        k < ps.2.2) := by
      intro hcon
      apply hc
      have hil : i < (patchSlice v ctr ps).length := by
        by_contra hilc
        rw [List.getD_eq_default _ _ (Nat.le_of_not_lt hilc), List.getD_nil] at hcon
        simp at hcon
      have hplane : (patchSlice v ctr ps).getD i [] ∈ patchSlice v ctr ps := by
        rw [List.getD_eq_getElem _ _ hil]
        exact List.getElem_mem _
      have hpl := hrect.2 _ hplane
      have hjl : j < ((patchSlice v ctr ps).getD i []).length := by
        by_contra hjlc
        rw [List.getD_eq_default _ _ (Nat.le_of_not_lt hjlc)] at hcon
        simp at hcon
      have hrowmem : ((patchSlice v ctr ps).getD i []).getD j [] ∈
          (patchSlice v ctr ps).getD i [] := by
        rw [List.getD_eq_getElem _ _ hjl]
        exact List.getElem_mem _
      exact ⟨hil, by rw [← hpl.1]; exact hjl,
        by rw [← hpl.2 _ hrowmem]; exact hcon.1⟩
    rw [if_neg hncon, if_neg hc]

/-- Witness for C5: the boundary-clamped slice of a concrete extraction. -/
theorem C5_witness :
    get3 (extract_patch volW (0, 0, 0) (2, 2, 2)) 1 0 0 =
      if 1 < (shape3 (patchSlice volW (0, 0, 0) (2, 2, 2))).1 ∧
          0 < (shape3 (patchSlice volW (0, 0, 0) (2, 2, 2))).2.1 ∧
          0 < (shape3 (patchSlice volW (0, 0, 0) (2, 2, 2))).2.2
      then get3 (patchSlice volW (0, 0, 0) (2, 2, 2)) 1 0 0 else 0 :=
  C5_padding_low_corner volW (0, 0, 0) (2, 2, 2) (by with_unfolding_all decide)
    (by with_unfolding_all decide) 1 0 0 (by decide) (by decide) (by decide)

theorem patchSlice_length_le (v : Vol3) (ctr ps : Coord) :
    (patchSlice v ctr ps).length ≤ 2 * (ps.1 / 2) := by
  simp only [patchSlice, slice3, sliceList, clampBounds]
  rw [List.length_map, List.length_take]
  refine le_trans (min_le_left _ _) ?_
  omega

theorem patchSlice_plane_le (v : Vol3) (ctr ps : Coord) :
    ∀ p ∈ patchSlice v ctr ps, p.length ≤ 2 * (ps.2.1 / 2) := by
  intro p hp
  simp only [patchSlice, slice3] at hp
  obtain ⟨p0, _, rfl⟩ := List.mem_map.mp hp
  rw [List.length_map]
  simp only [sliceList, clampBounds]
  rw [List.length_take]
  refine le_trans (min_le_left _ _) ?_
  omega

theorem patchSlice_row_le (v : Vol3) (ctr ps : Coord) :
    ∀ p ∈ patchSlice v ctr ps, ∀ r ∈ p, r.length ≤ 2 * (ps.2.2 / 2) := by
  intro p hp r hr
  simp only [patchSlice, slice3] at hp
  obtain ⟨p0, _, rfl⟩ := List.mem_map.mp hp
  obtain ⟨r0, _, rfl⟩ := List.mem_map.mp hr
  simp only [sliceList, clampBounds]
  rw [List.length_take]
  refine le_trans (min_le_left _ _) ?_
  omega

theorem patchSlice_plane_getD_le (v : Vol3) (ctr ps : Coord) (i : ℕ) :
    ((patchSlice v ctr ps).getD i []).length ≤ 2 * (ps.2.1 / 2) := by
  by_cases hi : i < (patchSlice v ctr ps).length
  · have hplane : (patchSlice v ctr ps).getD i [] ∈ patchSlice v ctr ps := by
      rw [List.getD_eq_getElem _ _ hi]
      exact List.getElem_mem _
    exact patchSlice_plane_le v ctr ps _ hplane
  · rw [List.getD_eq_default _ _ (Nat.le_of_not_lt hi)]
    simp

theorem patchSlice_row_getD_le (v : Vol3) (ctr ps : Coord) (i j : ℕ) :
    (((patchSlice v ctr ps).getD i []).getD j []).length ≤ 2 * (ps.2.2 / 2) := by
  by_cases hi : i < (patchSlice v ctr ps).length
  · have hplane : (patchSlice v ctr ps).getD i [] ∈ patchSlice v ctr ps := by
      rw [List.getD_eq_getElem _ _ hi]
      exact List.getElem_mem _
    by_cases hj : j < ((patchSlice v ctr ps).getD i []).length
    · have hrow : ((patchSlice v ctr ps).getD i []).getD j [] ∈
          (patchSlice v ctr ps).getD i [] := by
        rw [List.getD_eq_getElem _ _ hj]
        exact List.getElem_mem _
      exact patchSlice_row_le v ctr ps _ hplane _ hrow
    · rw [List.getD_eq_default _ _ (Nat.le_of_not_lt hj)]
      simp
  · rw [List.getD_eq_default _ _ (Nat.le_of_not_lt hi), List.getD_nil]
    simp

/-- C9: if the patch extent is odd along an axis, the clamped slice spans at
most `2*(p//2) = p-1` voxels along that axis, so the padding branch always
runs and the returned patch is identically zero on the whole last-index
hyperplane of that axis — even for centers far from every boundary. -/
theorem C9_odd_axis_trailing_zeros (v : Vol3) (ctr ps : Coord) :
    (Odd ps.1 → (patchSlice v ctr ps).length ≤ ps.1 - 1 ∧
      ∀ j k, get3 (extract_patch v ctr ps) (ps.1 - 1) j k = 0) ∧
    (Odd ps.2.1 → (∀ p ∈ patchSlice v ctr ps, p.length ≤ ps.2.1 - 1) ∧
      ∀ i k, get3 (extract_patch v ctr ps) i (ps.2.1 - 1) k = 0) ∧
    (Odd ps.2.2 → (∀ p ∈ patchSlice v ctr ps, ∀ r ∈ p, r.length ≤ ps.2.2 - 1) ∧
      ∀ i j, get3 (extract_patch v ctr ps) i j (ps.2.2 - 1) = 0) := by
  refine ⟨fun hodd => ?_, fun hodd => ?_, fun hodd => ?_⟩
  · obtain ⟨t, ht⟩ := hodd
    have h2 : 2 * (ps.1 / 2) = ps.1 - 1 := by omega
    have hlen := patchSlice_length_le v ctr ps
    refine ⟨by omega, ?_⟩
    intro j k
    have hneq : shape3 (patchSlice v ctr ps) ≠ ps := by
      intro heq
      have h1 : (patchSlice v ctr ps).length = ps.1 := congrArg (fun s => s.1) heq
      omega
    simp only [extract_patch]
    rw [if_neg hneq, get3_setVol]
    have hplane : (patchSlice v ctr ps).getD (ps.1 - 1) [] = [] :=
      List.getD_eq_default _ _ (by omega)
    rw [hplane, List.getD_nil]
    rw [if_neg (by simp), get3_zeros3]
  · obtain ⟨t, ht⟩ := hodd
    have h2 : 2 * (ps.2.1 / 2) = ps.2.1 - 1 := by omega
    refine ⟨fun p hp => by have := patchSlice_plane_le v ctr ps p hp; omega, ?_⟩
    intro i k
    have hneq : shape3 (patchSlice v ctr ps) ≠ ps := by
      intro heq
      have h1 : ((patchSlice v ctr ps).getD 0 []).length = ps.2.1 :=
        congrArg (fun s => s.2.1) heq
      have := patchSlice_plane_getD_le v ctr ps 0
      omega
    simp only [extract_patch]
    rw [if_neg hneq, get3_setVol]
    have hrow : ((patchSlice v ctr ps).getD i []).getD (ps.2.1 - 1) [] = [] :=
      List.getD_eq_default _ _ (by have := patchSlice_plane_getD_le v ctr ps i; omega)
    rw [hrow]
    rw [if_neg (by simp), get3_zeros3]
  · obtain ⟨t, ht⟩ := hodd
    have h2 : 2 * (ps.2.2 / 2) = ps.2.2 - 1 := by omega
    refine ⟨fun p hp r hr => by have := patchSlice_row_le v ctr ps p hp r hr; omega, ?_⟩
    intro i j
    have hneq : shape3 (patchSlice v ctr ps) ≠ ps := by
      intro heq
      have h1 : (((patchSlice v ctr ps).getD 0 []).getD 0 []).length = ps.2.2 :=
        congrArg (fun s => s.2.2) heq
      have := patchSlice_row_getD_le v ctr ps 0 0
      omega
    simp only [extract_patch]
    rw [if_neg hneq, get3_setVol]
    have hlen := patchSlice_row_getD_le v ctr ps i j
    rw [if_neg (by omega), get3_zeros3]

/-- Witness for C9 on a concrete interior extraction with odd patch size. -/
theorem C9_witness :
    get3 (extract_patch volW (1, 1, 1) (3, 3, 3)) 2 0 0 = 0 ∧
    get3 (extract_patch volW (1, 1, 1) (3, 3, 3)) 0 2 1 = 0 ∧
    get3 (extract_patch volW (1, 1, 1) (3, 3, 3)) 1 1 2 = 0 :=
  ⟨((C9_odd_axis_trailing_zeros volW (1, 1, 1) (3, 3, 3)).1 (by decide)).2 0 0,
    ((C9_odd_axis_trailing_zeros volW (1, 1, 1) (3, 3, 3)).2.1 (by decide)).2 0 1,
    ((C9_odd_axis_trailing_zeros volW (1, 1, 1) (3, 3, 3)).2.2 (by decide)).2 1 1⟩

/-! ### Percentile lemmas and claim C8 -/

theorem foldl_min_le_init (l : List ℚ) (a : ℚ) : l.foldl min a ≤ a := by
  induction l generalizing a with
  | nil => exact le_refl a
  | cons x t ih => exact le_trans (ih (min a x)) (min_le_left a x)

theorem foldl_min_le_mem {l : List ℚ} {x : ℚ} (hx : x ∈ l) (a : ℚ) :
    l.foldl min a ≤ x := by
  induction l generalizing a with
  | nil => simp at hx
  | cons y t ih =>
    rcases List.mem_cons.mp hx with rfl | hx'
    · exact le_trans (foldl_min_le_init t (min a x)) (min_le_right a x)
    · exact ih hx' (min a y)

theorem listMin_le {l : List ℚ} {x : ℚ} (hx : x ∈ l) : listMin l ≤ x := by
  cases l with
  | nil => simp at hx
  | cons y ys =>
    show ys.foldl min y ≤ x
    rcases List.mem_cons.mp hx with rfl | hx'
    · exact foldl_min_le_init ys x
    · exact foldl_min_le_mem hx' y

theorem init_le_foldl_max (l : List ℚ) (a : ℚ) : a ≤ l.foldl max a := by
  induction l generalizing a with
  | nil => exact le_refl a
  | cons x t ih => exact le_trans (le_max_left a x) (ih (max a x))

theorem mem_le_foldl_max {l : List ℚ} {x : ℚ} (hx : x ∈ l) (a : ℚ) :
    x ≤ l.foldl max a := by
  induction l generalizing a with
  | nil => simp at hx
  | cons y t ih =>
    rcases List.mem_cons.mp hx with rfl | hx'
    · exact le_trans (le_max_right a x) (init_le_foldl_max t (max a x))
    · exact ih hx' (max a y)

theorem le_listMax {l : List ℚ} {x : ℚ} (hx : x ∈ l) : x ≤ listMax l := by
  cases l with
  | nil => simp at hx
  | cons y ys =>
    show x ≤ ys.foldl max y
    rcases List.mem_cons.mp hx with rfl | hx'
    · exact init_le_foldl_max ys x
    · exact mem_le_foldl_max hx' y

theorem normalize3_nonneg (ch : Vol3) : ∀ x ∈ flat3 (normalize3 ch), 0 ≤ x := by
  intro x hx
  simp only [normalize3] at hx
  rw [flat3_map3] at hx
  obtain ⟨y, hy, rfl⟩ := List.mem_map.mp hx
  have heps : (0 : ℚ) < eps := by norm_num [eps]
  have hmin := listMin_le hy
  have hmax := le_listMax hy
  apply div_nonneg
  · linarith
  · linarith

theorem getD_sort_nonneg {l : List ℚ} (hl : ∀ x ∈ l, 0 ≤ x) (i : ℕ) :
    0 ≤ (l.insertionSort (· ≤ ·)).getD i 0 := by
  by_cases hi : i < (l.insertionSort (· ≤ ·)).length
  · rw [List.getD_eq_getElem _ _ hi]
    exact hl _ ((List.perm_insertionSort _ _).subset (List.getElem_mem hi))
  · rw [List.getD_eq_default _ _ (le_of_not_lt hi)]

theorem floor_frac_bounds {h : ℚ} (hh : 0 ≤ h) :
    0 ≤ h - (((Rat.floor h).toNat : ℕ) : ℚ) ∧
      h - (((Rat.floor h).toNat : ℕ) : ℚ) < 1 := by
  have hz : Rat.floor h = ⌊h⌋ := rfl
  have h0 : 0 ≤ ⌊h⌋ := Int.floor_nonneg.mpr hh
  have hcast : (((Rat.floor h).toNat : ℕ) : ℚ) = ((⌊h⌋ : ℤ) : ℚ) := by
    rw [hz]
    exact_mod_cast congrArg (fun z : ℤ => (z : ℚ)) (Int.toNat_of_nonneg h0)
  rw [hcast]
  constructor
  · linarith [Int.floor_le h]
  · linarith [Int.lt_floor_add_one h]

theorem sort_getD_mono {l : List ℚ} {i j : ℕ} (hij : i ≤ j) (hj : j < l.length) :
    (l.insertionSort (· ≤ ·)).getD i 0 ≤ (l.insertionSort (· ≤ ·)).getD j 0 := by
  have hlen : (l.insertionSort (· ≤ ·)).length = l.length := List.length_insertionSort _ _
  have hj' : j < (l.insertionSort (· ≤ ·)).length := by omega
  have hi' : i < (l.insertionSort (· ≤ ·)).length := by omega
  rw [List.getD_eq_getElem _ _ hi', List.getD_eq_getElem _ _ hj']
  have hsorted := List.sorted_insertionSort (· ≤ ·) l
  have hf : (⟨i, hi'⟩ : Fin (l.insertionSort (· ≤ ·)).length) ≤ ⟨j, hj'⟩ :=
    Fin.mk_le_mk.mpr hij
  simpa using hsorted.rel_get_of_le hf

theorem percentileValue_nonneg {l : List ℚ} (hl : ∀ x ∈ l, 0 ≤ x) {p : ℚ}
    (hp : 0 ≤ p) (hn : l ≠ []) : 0 ≤ percentileValue l p := by
  simp only [percentileValue]
  have hn1 : 1 ≤ l.length := List.length_pos.mpr hn
  have hhge : 0 ≤ p * ((l.length : ℚ) - 1) / 100 := by
    apply div_nonneg _ (by norm_num)
    apply mul_nonneg hp
    have hcast : (1 : ℚ) ≤ (l.length : ℚ) := by exact_mod_cast hn1
    linarith
  obtain ⟨hf0, hf1⟩ := floor_frac_bounds hhge
  have hlo := getD_sort_nonneg hl ((Rat.floor (p * ((l.length : ℚ) - 1) / 100)).toNat)
  have hhi := getD_sort_nonneg hl
    (min ((Rat.floor (p * ((l.length : ℚ) - 1) / 100)).toNat + 1) (l.length - 1))
  nlinarith [mul_nonneg hf0 hhi, mul_nonneg hf0 hlo]

theorem interp_mono {s : List ℚ} {N : ℕ} ( _hlen : s.length = N) (hN : 1 ≤ N)
    (hmono : ∀ i j : ℕ, i ≤ j → j < N → s.getD i 0 ≤ s.getD j 0)
    {x1 x2 : ℚ} (h0 : 0 ≤ x1) (h12 : x1 ≤ x2) (hle : x2 ≤ (N : ℚ) - 1) :
    s.getD (Rat.floor x1).toNat 0 + (x1 - ((Rat.floor x1).toNat : ℚ)) *
        (s.getD (min ((Rat.floor x1).toNat + 1) (N - 1)) 0 -
          s.getD (Rat.floor x1).toNat 0) ≤
      s.getD (Rat.floor x2).toNat 0 + (x2 - ((Rat.floor x2).toNat : ℚ)) *
        (s.getD (min ((Rat.floor x2).toNat + 1) (N - 1)) 0 -
          s.getD (Rat.floor x2).toNat 0) := by
  have hx2ge : 0 ≤ x2 := le_trans h0 h12
  obtain ⟨hf10, hf11⟩ := floor_frac_bounds h0
  obtain ⟨hf20, hf21⟩ := floor_frac_bounds hx2ge
  have hRf : ∀ q : ℚ, Rat.floor q = ⌊q⌋ := fun _ => rfl
  have hfmono : (Rat.floor x1).toNat ≤ (Rat.floor x2).toNat := by
    rw [hRf, hRf]
    exact Int.toNat_le_toNat (Int.floor_le_floor h12)
  have hlo2le : (Rat.floor x2).toNat ≤ N - 1 := by
    rw [hRf]
    apply Int.toNat_le.mpr
    have hfc : ⌊((N : ℚ) - 1)⌋ = (N : ℤ) - 1 := by
      rw [show ((N : ℚ) - 1) = (((N : ℤ) - 1 : ℤ) : ℚ) by push_cast; ring]
      exact Int.floor_intCast _
    have hle2 := Int.floor_le_floor hle
    rw [hfc] at hle2
    omega
  have hlo1le : (Rat.floor x1).toNat ≤ N - 1 := le_trans hfmono hlo2le
  set lo1 := (Rat.floor x1).toNat with hlo1d
  set lo2 := (Rat.floor x2).toNat with hlo2d
  have h1a := hmono lo1 (min (lo1 + 1) (N - 1)) (by omega) (by omega)
  have h2a := hmono lo2 (min (lo2 + 1) (N - 1)) (by omega) (by omega)
  by_cases hcase : lo1 = lo2
  · rw [hcase]
    have hfr : x1 - (lo2 : ℚ) ≤ x2 - (lo2 : ℚ) := by linarith
    nlinarith [mul_nonneg (sub_nonneg.mpr hfr) (sub_nonneg.mpr h2a)]
  · have hlt : lo1 < lo2 := lt_of_le_of_ne hfmono hcase
    have hBC := hmono (min (lo1 + 1) (N - 1)) lo2 (by omega) (by omega)
    nlinarith [mul_nonneg (by linarith : (0 : ℚ) ≤ 1 - (x1 - (lo1 : ℚ)))
        (sub_nonneg.mpr h1a),
      mul_nonneg hf20 (sub_nonneg.mpr h2a), hBC]

theorem percentileValue_mono {l : List ℚ} (hn : l ≠ []) {p1 p2 : ℚ}
    (h0 : 0 ≤ p1) (h12 : p1 ≤ p2) (h100 : p2 ≤ 100) :
    percentileValue l p1 ≤ percentileValue l p2 := by
  simp only [percentileValue]
  have hn1 : 1 ≤ l.length := List.length_pos.mpr hn
  have hncast : (1 : ℚ) ≤ (l.length : ℚ) := by exact_mod_cast hn1
  apply interp_mono (List.length_insertionSort (· ≤ ·) l) hn1
  · intro i j hij hj
    exact sort_getD_mono hij hj
  · exact div_nonneg (mul_nonneg h0 (by linarith)) (by norm_num)
  · have hmul := mul_le_mul_of_nonneg_right h12
      (by linarith : (0 : ℚ) ≤ (l.length : ℚ) - 1)
    have h100pos : (0 : ℚ) < 100 := by norm_num
    rw [div_le_div_iff₀ h100pos h100pos]
    nlinarith
  · rw [div_le_iff₀ (by norm_num : (0 : ℚ) < 100)]
    have hmul := mul_le_mul_of_nonneg_right h100
      (by linarith : (0 : ℚ) ≤ (l.length : ℚ) - 1)
    linarith

/-- C8: for every channel and every pair of percentiles `p1 ≤ p2` in [0,100],
the threshold mask of the normalized channel at `p2` has at most as many true
voxels as the mask at `p1` — the strict-greater threshold comparison against a
percentile value that is monotone in the percentile makes the true-count
non-increasing. -/
theorem C8_threshold_count_antitone (ch : Vol3) (p1 p2 : ℚ)
    (hne : flat3 ch ≠ []) (h0 : 0 ≤ p1) (h12 : p1 ≤ p2) (h100 : p2 ≤ 100) :
    countTrue (flat3 (thresholdMask (normalize3 ch)
        (percentileValue (flat3 (normalize3 ch)) p2))) ≤
      countTrue (flat3 (thresholdMask (normalize3 ch)
        (percentileValue (flat3 (normalize3 ch)) p1))) := by
  have hnne : flat3 (normalize3 ch) ≠ [] := by
    simp only [normalize3]
    rw [flat3_map3]
    simpa using hne
  have hmono := percentileValue_mono hnne h0 h12 h100
  unfold thresholdMask countTrue
  rw [flat3_map3, flat3_map3, List.countP_map, List.countP_map]
  apply List.countP_mono_left
  intro x _ hx
  simp only [Function.comp, decide_eq_true_eq] at hx ⊢
  linarith

/-- Witness for C8 on a concrete channel and percentile pair. -/
theorem C8_witness :
    countTrue (flat3 (thresholdMask (normalize3 volW)
        (percentileValue (flat3 (normalize3 volW)) 75))) ≤
      countTrue (flat3 (thresholdMask (normalize3 volW)
        (percentileValue (flat3 (normalize3 volW)) 25))) :=
  C8_threshold_count_antitone volW 25 75 (by with_unfolding_all decide)
    (by decide) (by decide) (by decide)

/-! ### Manders coefficient lemmas and claim C6 -/

theorem maskedSum_nil_left (xs : List ℚ) : maskedSum [] xs = 0 := by
  cases xs <;> rfl

theorem maskedSum_nonneg (bs : List Bool) (xs : List ℚ) (hx : ∀ x ∈ xs, 0 ≤ x) :
    0 ≤ maskedSum bs xs := by
  induction bs generalizing xs with
  | nil => rw [maskedSum_nil_left]
  | cons b bt ih =>
    cases xs with
    | nil => exact le_refl 0
    | cons x xt =>
      show 0 ≤ (if b then x else 0) + maskedSum bt xt
      have h1 : 0 ≤ (if b then x else 0) := by
        split
        · exact hx x (List.mem_cons_self x xt)
        · exact le_refl 0
      have h2 := ih xt (fun y hy => hx y (List.mem_cons_of_mem _ hy))
      linarith

theorem maskedSum_and_le (m1 m2 : List Bool) (xs : List ℚ) (hx : ∀ x ∈ xs, 0 ≤ x) :
    maskedSum (List.zipWith (· && ·) m1 m2) xs ≤ maskedSum m1 xs := by
  induction m1 generalizing m2 xs with
  | nil =>
    rw [List.zipWith_nil_left, maskedSum_nil_left]
  | cons b bt ih =>
    cases m2 with
    | nil =>
      rw [List.zipWith_nil_right, maskedSum_nil_left]
      exact maskedSum_nonneg (b :: bt) xs hx
    | cons c ct =>
      cases xs with
      | nil => exact le_refl _
      | cons x xt =>
        show (if b && c then x else 0) + maskedSum (List.zipWith (· && ·) bt ct) xt ≤
          (if b then x else 0) + maskedSum bt xt
        have hx' : ∀ y ∈ xt, 0 ≤ y := fun y hy => hx y (List.mem_cons_of_mem _ hy)
        have h1 : (if b && c then x else 0) ≤ (if b then x else 0) := by
          cases b with
          | false => simp
          | true =>
            cases c with
            | false => simpa using hx x (List.mem_cons_self x xt)
            | true => simp
        have h2 := ih ct xt hx'
        linarith

theorem maskedSum_threshold_pos {xs : List ℚ} {t : ℚ} (ht : 0 ≤ t)
    (hx : ∀ x ∈ xs, 0 ≤ x) (hex : ∃ x ∈ xs, t < x) :
    0 < maskedSum (xs.map (fun x => decide (t < x))) xs := by
  induction xs with
  | nil => simp at hex
  | cons x xt ih =>
    show 0 < (if decide (t < x) then x else 0) + maskedSum (xt.map _) xt
    have hx' : ∀ y ∈ xt, 0 ≤ y := fun y hy => hx y (List.mem_cons_of_mem _ hy)
    rcases hex with ⟨y, hy, hty⟩
    rcases List.mem_cons.mp hy with rfl | hy'
    · have hhead : (if decide (t < y) then y else 0) = y := by
        rw [if_pos (by simpa using hty)]
      rw [hhead]
      have h2 := maskedSum_nonneg (xt.map (fun x => decide (t < x))) xt hx'
      linarith
    · have h1 : 0 ≤ (if decide (t < x) then x else 0) := by
        split
        · exact hx x (List.mem_cons_self x xt)
        · exact le_refl 0
      have h2 := ih hx' ⟨y, hy', hty⟩
      linarith

theorem zipWith_and_eq_left {m1 m2 : List Bool}
    (h : List.Forall₂ (fun a b => a = true → b = true) m1 m2) :
    List.zipWith (· && ·) m1 m2 = m1 := by
  induction m1 generalizing m2 with
  | nil => rw [List.zipWith_nil_left]
  | cons a as ih =>
    cases m2 with
    | nil => cases h
    | cons b bs =>
      rcases List.forall₂_cons.mp h with ⟨hab, htail⟩
      simp only [List.zipWith_cons_cons]
      rw [ih htail]
      congr 1
      cases a with
      | false => rfl
      | true => rw [hab rfl]; rfl

theorem hasShape_map3 {α β : Type} (f : α → β) {v : Grid α} {s : Coord}
    (hv : HasShape v s) : HasShape (map3 f v) s := by
  refine ⟨by simp [map3, hv.1], ?_⟩
  intro p hp
  simp only [map3, List.mem_map] at hp
  obtain ⟨p0, hp0, rfl⟩ := hp
  refine ⟨by simp [(hv.2 p0 hp0).1], ?_⟩
  intro r hr
  simp only [List.mem_map] at hr
  obtain ⟨r0, hr0, rfl⟩ := hr
  simp [(hv.2 p0 hp0).2 r0 hr0]

theorem flatten_zipWith1 {α β γ : Type} (f : α → β → γ) :
    ∀ {p : List (List α)} {q : List (List β)},
      List.Forall₂ (fun r u => r.length = u.length) p q →
      (List.zipWith (fun r u => List.zipWith f r u) p q).flatten =
        List.zipWith f p.flatten q.flatten := by
  intro p q h
  induction h with
  | nil => rfl
  | cons hru _ ih =>
    simp only [List.zipWith_cons_cons, List.flatten_cons]
    rw [ih, List.zipWith_append f _ _ _ _ hru]

theorem flatten_length_eq_of_forall₂ {α β : Type} :
    ∀ {p : List (List α)} {q : List (List β)},
      List.Forall₂ (fun r u => r.length = u.length) p q →
      p.flatten.length = q.flatten.length := by
  intro p q h
  induction h with
  | nil => rfl
  | cons hru _ ih => simp [hru, ih]

theorem forall₂_rows_of_hasShape {α β : Type} {a : Grid α} {b : Grid β} {s : Coord}
    (ha : HasShape a s) (hb : HasShape b s) :
    List.Forall₂ (fun p q => List.Forall₂
      (fun (r : List α) (u : List β) => r.length = u.length) p q) a b := by
  rw [List.forall₂_iff_get]
  refine ⟨by rw [ha.1, hb.1], ?_⟩
  intro i h1 h2
  rw [List.forall₂_iff_get]
  have hpa : a.get ⟨i, h1⟩ ∈ a := List.get_mem a i h1
  have hpb : b.get ⟨i, h2⟩ ∈ b := List.get_mem b i h2
  refine ⟨by rw [(ha.2 _ hpa).1, (hb.2 _ hpb).1], ?_⟩
  intro j hj1 hj2
  rw [(ha.2 _ hpa).2 _ (List.get_mem _ _ _), (hb.2 _ hpb).2 _ (List.get_mem _ _ _)]

theorem flat3_zipG {α β γ : Type} (f : α → β → γ) {a : Grid α} {b : Grid β}
    {s : Coord} (ha : HasShape a s) (hb : HasShape b s) :
    flat3 (zipG f a b) = List.zipWith f (flat3 a) (flat3 b) := by
  unfold flat3 zipG
  have hzip := forall₂_rows_of_hasShape ha hb
  clear ha hb
  induction hzip with
  | nil => rfl
  | cons hpq htail ih =>
    simp only [List.zipWith_cons_cons, List.map_cons, List.flatten_cons]
    rw [flatten_zipWith1 f hpq, ih,
      List.zipWith_append f _ _ _ _ (flatten_length_eq_of_forall₂ hpq)]

/-- C6 (counterexample): for the all-zero 1 x 1 x 2 channels, `mask1` is
entirely false, so every true voxel of `mask1` is (vacuously) also true in
`mask2`; the claim's "equals 1 when every true voxel of mask1 is also true in
mask2" demands coefficient 1, but the code returns coefficient 0. -/
theorem C6_counterexample :
    calculate_colocalization_score zeroCh zeroCh 50 = .ok (0, [[[false, false]]]) ∧
    List.Forall₂ (fun x y => x = true → y = true)
      (flat3 (channelMask zeroCh 50)) (flat3 (channelMask zeroCh 50)) ∧
    (0 : ℚ) ≠ 1 := by
  with_unfolding_all decide

/-- C6 (amended): for equal-shaped nonempty channels and a percentile in
[0,100], the Manders coefficient is always in [0,1]; it is 0 whenever `mask1`
is entirely false; and it is 1 whenever `mask1` contains at least one true
voxel and every true voxel of `mask1` is also true in `mask2` (the
nonemptiness proviso is forced: an entirely false `mask1` vacuously satisfies
the subset condition yet yields coefficient 0). -/
theorem C6_amended_manders_bounds (ch1 ch2 : Vol3) (s : Coord) (p : ℚ)
    (hsh1 : HasShape ch1 s) (hsh2 : HasShape ch2 s) (hne : flat3 ch1 ≠ [])
    (hp0 : 0 ≤ p) ( _hp100 : p ≤ 100) :
    ∀ q m, calculate_colocalization_score ch1 ch2 p = .ok (q, m) →
      (0 ≤ q ∧ q ≤ 1) ∧
      ((∀ x ∈ flat3 (channelMask ch1 p), x = false) → q = 0) ∧
      (true ∈ flat3 (channelMask ch1 p) ∧
        List.Forall₂ (fun x y => x = true → y = true)
          (flat3 (channelMask ch1 p)) (flat3 (channelMask ch2 p)) → q = 1) := by
  intro q m heq
  obtain ⟨a, b, c⟩ := s
  have hlen1 : (flat3 ch1).length = a * b * c := flat3_length hsh1
  have hlen2 : (flat3 ch2).length = a * b * c := flat3_length hsh2
  have hne2 : flat3 ch2 ≠ [] := by
    intro h0
    rw [h0] at hlen2
    apply hne
    apply List.eq_nil_of_length_eq_zero
    rw [hlen1, ← hlen2]
    rfl
  simp only [calculate_colocalization_score] at heq
  rw [if_neg (by push_neg; exact ⟨hne, hne2⟩)] at heq
  simp only [Except.ok.injEq, Prod.mk.injEq] at heq
  obtain ⟨hq, hm⟩ := heq
  have hshnorm1 : HasShape (normalize3 ch1) (a, b, c) := by
    simp only [normalize3]
    exact hasShape_map3 _ hsh1
  have hshnorm2 : HasShape (normalize3 ch2) (a, b, c) := by
    simp only [normalize3]
    exact hasShape_map3 _ hsh2
  have hshm1 : HasShape (channelMask ch1 p) (a, b, c) := by
    simp only [channelMask, thresholdMask]
    exact hasShape_map3 _ hshnorm1
  have hshm2 : HasShape (channelMask ch2 p) (a, b, c) := by
    simp only [channelMask, thresholdMask]
    exact hasShape_map3 _ hshnorm2
  have hcoloc : flat3 (zipG (· && ·) (channelMask ch1 p) (channelMask ch2 p)) =
      List.zipWith (· && ·) (flat3 (channelMask ch1 p)) (flat3 (channelMask ch2 p)) :=
    flat3_zipG _ hshm1 hshm2
  have hm1flat : flat3 (channelMask ch1 p) = (flat3 (normalize3 ch1)).map
      (fun x => decide (percentileValue (flat3 (normalize3 ch1)) p < x)) := by
    simp only [channelMask, thresholdMask]
    rw [flat3_map3]
  have hxs_nonneg : ∀ x ∈ flat3 (normalize3 ch1), 0 ≤ x := normalize3_nonneg ch1
  have hxs_ne : flat3 (normalize3 ch1) ≠ [] := by
    simp only [normalize3]
    rw [flat3_map3]
    simpa using hne
  have ht1_nonneg : 0 ≤ percentileValue (flat3 (normalize3 ch1)) p :=
    percentileValue_nonneg hxs_nonneg hp0 hxs_ne
  subst hq
  refine ⟨?_, ?_, ?_⟩
  · by_cases hcnt : 0 < countTrue (flat3 (channelMask ch1 p))
    · have hex : ∃ x ∈ flat3 (normalize3 ch1),
          percentileValue (flat3 (normalize3 ch1)) p < x := by
        unfold countTrue at hcnt
        rw [List.countP_pos_iff] at hcnt
        obtain ⟨bb, hbb, hbbt⟩ := hcnt
        rw [hm1flat] at hbb
        obtain ⟨x, hx, hpx⟩ := List.mem_map.mp hbb
        refine ⟨x, hx, ?_⟩
        have : bb = true := by simpa using hbbt
        rw [this] at hpx
        simpa using hpx
      have hden : 0 < maskedSum (flat3 (channelMask ch1 p)) (flat3 (normalize3 ch1)) := by
        rw [hm1flat]
        exact maskedSum_threshold_pos ht1_nonneg hxs_nonneg hex
      have hnum_nonneg : 0 ≤ maskedSum
          (flat3 (zipG (· && ·) (channelMask ch1 p) (channelMask ch2 p)))
          (flat3 (normalize3 ch1)) := maskedSum_nonneg _ _ hxs_nonneg
      have hnum_le : maskedSum
          (flat3 (zipG (· && ·) (channelMask ch1 p) (channelMask ch2 p)))
          (flat3 (normalize3 ch1)) ≤
            maskedSum (flat3 (channelMask ch1 p)) (flat3 (normalize3 ch1)) := by
        rw [hcoloc]
        exact maskedSum_and_le _ _ _ hxs_nonneg
      rw [if_pos hcnt]
      exact ⟨div_nonneg hnum_nonneg (le_of_lt hden), by
        rw [div_le_one hden]; exact hnum_le⟩
    · rw [if_neg hcnt]
      exact ⟨le_refl 0, by norm_num⟩
  · intro hallf
    have hz : ¬(0 < countTrue (flat3 (channelMask ch1 p))) := by
      unfold countTrue
      rw [List.countP_eq_zero.mpr (fun x hx => by rw [hallf x hx]; simp)]
      exact lt_irrefl 0
    rw [if_neg hz]
  · rintro ⟨htrue, hsub⟩
    have hcnt : 0 < countTrue (flat3 (channelMask ch1 p)) := by
      unfold countTrue
      rw [List.countP_pos_iff]
      exact ⟨true, htrue, rfl⟩
    have hex : ∃ x ∈ flat3 (normalize3 ch1),
        percentileValue (flat3 (normalize3 ch1)) p < x := by
      rw [hm1flat] at htrue
      obtain ⟨x, hx, hpx⟩ := List.mem_map.mp htrue
      exact ⟨x, hx, by simpa using hpx⟩
    have hden : 0 < maskedSum (flat3 (channelMask ch1 p)) (flat3 (normalize3 ch1)) := by
      rw [hm1flat]
      exact maskedSum_threshold_pos ht1_nonneg hxs_nonneg hex
    rw [if_pos hcnt, hcoloc, zipWith_and_eq_left hsub]
    exact div_self (ne_of_gt hden)

/-- Witness for the amended C6 theorem on the 1 x 1 x 2 channel `[0, 1]`,
where `mask1 = [false, true]` is nonempty and equals `mask2`, so the
coefficient is exactly 1. -/
theorem C6_amended_witness :
    (0 ≤ (1 : ℚ) ∧ (1 : ℚ) ≤ 1) ∧
    ((∀ x ∈ flat3 (channelMask oneCh 50), x = false) → (1 : ℚ) = 0) ∧
    (true ∈ flat3 (channelMask oneCh 50) ∧
      List.Forall₂ (fun x y => x = true → y = true)
        (flat3 (channelMask oneCh 50)) (flat3 (channelMask oneCh 50)) → (1 : ℚ) = 1) :=
  C6_amended_manders_bounds oneCh oneCh (1, 1, 2) 50 (by with_unfolding_all decide)
    (by with_unfolding_all decide) (by with_unfolding_all decide) (by decide)
    (by decide) 1 [[[false, true]]] (by with_unfolding_all decide)

end CellSeg
